import Mathlib

set_option linter.unusedVariables false

/-! Shallow embedding of src/CVATTools/CVATTools.cpp (TinyTinni/CVATTools).

Canvases (cv::Mat of type CV_8UC1) are modelled as a record holding a width,
a height and a pixel function; coordinates are Int (C++ int attributes),
sizes and pixel values are Nat.  The XML layer (pugixml) only carries
attribute values to the code under verification, so geometry nodes, image
nodes and label declarations are modelled as records of the attribute values
the C++ code reads from them. -/

/-- One geometry node as dispatched on by node name in Geometry::draw_mask
(lines 65-107).  A node whose name is none of the five known kinds falls
through every strcmp branch and draws nothing; it is the `other` constructor.
The point-list kinds carry the result of Geometry::parse_points on their
points attribute; the ellipse rotation attribute (a float, only forwarded to
cv::ellipse) is not carried since no verified property depends on it. -/
inductive Shape where
  | box (xtl ytl xbr ybr : Int)
  | polygon (pts : List (Int × Int))
  | polyline (pts : List (Int × Int))
  | points (pts : List (Int × Int))
  | ellipse (cx cy rx ry : Int)
  | other (tag : String)
  deriving DecidableEq

/-- One annotation: shape node, label attribute (Geometry::label, line 60),
and optional group_id attribute (Geometry::group, lines 52-58, which yields
nullopt exactly when the attribute is absent). -/
structure Geometry where
  shape : Shape
  label : String
  group : Option Nat
  deriving DecidableEq

/-- A single-channel canvas (cv::Mat, CV_8UC1): width, height, and the pixel
value at column x, row y.  Values of pix outside the w x h grid are never
read by the embedded code. -/
structure Mask where
  width : Nat
  height : Nat
  pix : Nat → Nat → Nat

instance : Inhabited Mask := ⟨⟨0, 0, fun _ _ => 0⟩⟩

/-- Pixels covered by the box branch (lines 72-81): the C++ builds
cv::Rect with origin (xtl, ytl), width xbr - xtl and height ybr - ytl and
fills it.  cv::rectangle with a cv::Rect argument does nothing when the rect
is empty (width or height nonpositive) and otherwise fills exactly the
rect's area: it forwards corners rect.tl() and rect.br() - (1,1), i.e. the
pixels xtl <= px <= xbr - 1, ytl <= py <= ybr - 1. -/
def boxCover (xtl ytl xbr ybr x y : Int) : Bool :=
  decide (0 < xbr - xtl) && decide (0 < ybr - ytl) &&
  decide (xtl ≤ x) && decide (x ≤ xbr - 1) &&
  decide (ytl ≤ y) && decide (y ≤ ybr - 1)

/-- Pixels covered by the points branch (lines 82-90): cv::circle with
radius 0 and FILLED sets the single centre pixel of each parsed point. -/
def pointsCover (pts : List (Int × Int)) (x y : Int) : Bool :=
  pts.any fun p => decide (p.1 = x) && decide (p.2 = y)

/-- Exact lattice-point-on-segment test used to model the polyline stroke. -/
def onSegment (a b : Int × Int) (x y : Int) : Bool :=
  decide ((b.1 - a.1) * (y - a.2) = (b.2 - a.2) * (x - a.1)) &&
  decide (min a.1 b.1 ≤ x) && decide (x ≤ max a.1 b.1) &&
  decide (min a.2 b.2 ≤ y) && decide (y ≤ max a.2 b.2)

/-- Consecutive pairs of a point list: the segments of an open path. -/
def segPairs : List (Int × Int) → List ((Int × Int) × (Int × Int))
  | a :: b :: rest => (a, b) :: segPairs (b :: rest)
  | _ => []

/-- Modelled from the spec: the polyline branch (lines 91-95) calls the
external primitive cv::polylines (stroke the open path through the point
list with 1-pixel width, no fill); modelled as the lattice points lying
exactly on one of the path's segments. -/
def polylineCover (pts : List (Int × Int)) (x y : Int) : Bool :=
  (segPairs pts).any fun s => onSegment s.1 s.2 x y

/-- Edges of the closed polygon through a point list (last point joined
back to the first). -/
def closedEdges (pts : List (Int × Int)) : List ((Int × Int) × (Int × Int)) :=
  match pts with
  | [] => []
  | p :: _ => segPairs (pts ++ [p])

/-- Ray-crossing test for one polygon edge against the horizontal ray going
right from (x, y), written with exact integer arithmetic. -/
def edgeCrosses (a b : Int × Int) (x y : Int) : Bool :=
  (decide (a.2 ≤ y) != decide (b.2 ≤ y)) &&
  (if a.2 ≤ b.2 then decide ((x - a.1) * (b.2 - a.2) < (b.1 - a.1) * (y - a.2))
   else decide ((x - b.1) * (a.2 - b.2) < (a.1 - b.1) * (y - b.2)))

/-- Modelled from the spec: the polygon branch (lines 67-71) calls the
external primitive cv::fillPoly (fill the closed polygon defined by the
point list under an even-odd scan rule; fewer than 3 points yields no
fill); modelled as an even-odd crossing-parity test. -/
def polygonCover (pts : List (Int × Int)) (x y : Int) : Bool :=
  decide (3 ≤ pts.length) &&
  decide (((closedEdges pts).countP fun e => edgeCrosses e.1 e.2 x y) % 2 = 1)

/-- Modelled from the spec: the ellipse branch (lines 96-106) calls the
external primitive cv::ellipse with FILLED (fill the ellipse centred at
(cx, cy) with radii (rx, ry), full sweep); modelled by the standard
axis-aligned ellipse inequality (the float rotation forwarded by the C++ is
outside the integer model and no claim depends on it). -/
def ellipseCover (cx cy rx ry x y : Int) : Bool :=
  decide (ry ^ 2 * (x - cx) ^ 2 + rx ^ 2 * (y - cy) ^ 2 ≤ rx ^ 2 * ry ^ 2)

/-- Pixel coverage of one shape, by kind.  An unknown node name matches no
strcmp branch of Geometry::draw_mask and covers nothing. -/
def shapeCover : Shape → Int → Int → Bool
  | Shape.box xtl ytl xbr ybr, x, y => boxCover xtl ytl xbr ybr x y
  | Shape.polygon pts, x, y => polygonCover pts x y
  | Shape.polyline pts, x, y => polylineCover pts x y
  | Shape.points pts, x, y => pointsCover pts x y
  | Shape.ellipse cx cy rx ry, x, y => ellipseCover cx cy rx ry x y
  | Shape.other _, _, _ => false

/-- Whether a geometry writes the in-canvas pixel (x, y) of a w x h canvas:
every cv draw call clips to the canvas, and pixels outside the canvas do
not exist. -/
def coversPix (w h : Nat) (g : Geometry) (x y : Nat) : Bool :=
  decide (x < w) && decide (y < h) && shapeCover g.shape (x : Int) (y : Int)

/-- Geometry::draw_mask (lines 65-107): rasterize one geometry onto the
canvas.  Every branch of the C++ dispatch draws with colour 255, so the
update sets each covered in-canvas pixel to 255 and leaves every other
pixel unchanged. -/
def Geometry.draw_mask (g : Geometry) (m : Mask) : Mask :=
  { width := m.width, height := m.height,
    pix := fun x y => if coversPix m.width m.height g x y then 255 else m.pix x y }

/-- One image node: name, width and height attributes, and its geometry
children in document order (class Image, lines 110-230). -/
structure Image where
  filename : String
  width : Nat
  height : Nat
  geometries : List Geometry
  deriving DecidableEq

/-- Image::empty_mask (lines 157-162): a width x height canvas with every
pixel 0. -/
def Image.empty_mask (img : Image) : Mask :=
  { width := img.width, height := img.height, pix := fun _ _ => 0 }

@[simp] theorem draw_mask_width (g : Geometry) (m : Mask) :
    (g.draw_mask m).width = m.width := rfl

@[simp] theorem draw_mask_height (g : Geometry) (m : Mask) :
    (g.draw_mask m).height = m.height := rfl

theorem draw_mask_pix (g : Geometry) (m : Mask) (x y : Nat) :
    (g.draw_mask m).pix x y
      = if coversPix m.width m.height g x y then 255 else m.pix x y := rfl

/-- Image::mask_combined (lines 169-181): one canvas, initialized by
Image::empty_mask, onto which every child geometry whose label attribute
equals the requested label is drawn (children with another label are
skipped by the continue). -/
def Image.mask_combined (img : Image) (label : String) : Mask :=
  img.geometries.foldl
    (fun m g => if g.label = label then g.draw_mask m else m)
    img.empty_mask

/-- Loop state of Image::mask (lines 183-204).  cv::Mat has shared pixel
buffers, so the vector entries pushed by the loop alias the canvases the
loop keeps drawing on; the model makes the buffers explicit: store is the
list of allocated buffers, groups is the unordered_map from group id to its
buffer, result is the buffer index pushed for each matching geometry. -/
structure GroupState where
  store : List Mask
  groups : List (Nat × Nat)
  result : List Nat

/-- Lookup in the modelled unordered_map (association list keyed by the
group id). -/
def lookupGroup (gs : List (Nat × Nat)) (k : Nat) : Option Nat :=
  (gs.find? fun p => p.1 == k).map (fun p => p.2)

/-- One iteration of the loop of Image::mask: skip a geometry with another
label; otherwise allocate a fresh empty canvas, but when the geometry has a
group_id already present in the map, use the mapped canvas instead
(unordered_map::insert keeps the existing entry); draw the geometry on that
canvas and push it (by reference) onto the result. -/
def maskStep (w h : Nat) (label : String) (st : GroupState) (g : Geometry) :
    GroupState :=
  if g.label = label then
    match g.group with
    | none =>
      { store := st.store ++ [g.draw_mask ⟨w, h, fun _ _ => 0⟩],
        groups := st.groups,
        result := st.result ++ [st.store.length] }
    | some gid =>
      match lookupGroup st.groups gid with
      | some idx =>
        { store := st.store.set idx
            (g.draw_mask (st.store.getD idx default)),
          groups := st.groups,
          result := st.result ++ [idx] }
      | none =>
        { store := st.store ++ [g.draw_mask ⟨w, h, fun _ _ => 0⟩],
          groups := st.groups ++ [(gid, st.store.length)],
          result := st.result ++ [st.store.length] }
  else st

/-- Image::mask (lines 183-204): run the loop over the children, then
return the pushed vector.  The returned cv::Mat entries share buffers with
the canvases drawn on during the whole loop, so each returned mask is the
final content of its buffer. -/
def Image.mask (img : Image) (label : String) : List Mask :=
  let st := img.geometries.foldl (maskStep img.width img.height label)
    ⟨[], [], []⟩
  st.result.map fun i => st.store.getD i default

/-- One entry of the label catalog of the document: a label node of
meta/task/labels, carrying its name child. -/
structure LabelDecl where
  name : String
  deriving DecidableEq

instance : Inhabited LabelDecl := ⟨⟨""⟩⟩

/-- CVATMaskGenerator::labels (lines 298-306): push the name text of every
label declaration, in document order. -/
def CVATMaskGenerator.labels (decls : List LabelDecl) : List String :=
  decls.map LabelDecl.name

/-- The parsed document as the generator reads it: the label declarations
under meta/task/labels and the image children of the annotations root. -/
structure CVATDoc where
  labelDecls : List LabelDecl
  images : List Image

/-- CVATMaskGenerator::from_file (lines 253-258): the result of
pugi::xml_document::load_file is discarded, so a file that cannot be read
or parsed leaves the document empty, and an empty document's annotations
child is a null node with no label declarations and no image children. -/
def CVATMaskGenerator.from_file (loaded : Option CVATDoc) : CVATDoc :=
  match loaded with
  | some d => d
  | none => ⟨[], []⟩

/-- std::filesystem::path::replace_extension, for a path that is a plain
filename: drop the extension (the suffix starting at the last dot, except
when there is no dot, the last dot is the leading character, or the name is
the special name dot-dot) and append the new extension. -/
def lastDotAux : List Char → Nat → Option Nat → Option Nat
  | [], _, acc => acc
  | c :: t, i, acc => lastDotAux t (i + 1) (if c = '.' then some i else acc)

/-- Index of the last dot of a filename, if any. -/
def lastDotIdx (cs : List Char) : Option Nat :=
  lastDotAux cs 0 none

/-- Stem of a filename under the std::filesystem rules described above. -/
def pathStem (cs : List Char) : List Char :=
  if cs = ['.'] then cs
  else if cs = ['.', '.'] then cs
  else
    match lastDotIdx cs with
    | none => cs
    | some 0 => cs
    | some i => cs.take i

/-- The output filename of an image: its name attribute with the extension
replaced by png (write_masks_to_directory, lines 470-471). -/
def pngName (s : String) : String :=
  String.mk (pathStem s.toList ++ ['.', 'p', 'n', 'g'])

/-- write_masks_to_directory (lines 445-486): read the catalog, create one
directory per catalog entry, then for every image and every catalog entry
write the combined mask to the entry's directory under the image's
png-extension name.  Modelled as the created directory list together with
the emitted (label, output filename, mask) tuples; the per-image tasks are
independent and the claims are order-insensitive, so emissions are listed
image by image. -/
def write_masks_to_directory (doc : CVATDoc) :
    List String × List (String × String × Mask) :=
  let labels := CVATMaskGenerator.labels doc.labelDecls
  (labels,
   doc.images.flatMap fun img =>
     labels.map fun l => (l, pngName img.filename, img.mask_combined l))

/-- main (lines 488-520): parse the CLI, call write_masks_to_directory and
return 0; return 1 only when an exception escapes it.  cv::imwrite reports
a failed write through its ignored return value and the per-image futures
are waited with wait(), which does not rethrow a stored exception, so a
failed write never escapes and the modelled run always returns exit code 0
together with the directories created and the writes attempted, each tagged
with the sink's verdict (which the C++ discards). -/
def mainRun (loaded : Option CVATDoc) (sinkOk : String → String → Bool) :
    Nat × List String × List (String × String × Bool) :=
  let doc := CVATMaskGenerator.from_file loaded
  let out := write_masks_to_directory doc
  (0, out.1, out.2.map fun o => (o.1, o.2.1, sinkOk o.1 o.2.1))

/-- Digit test of std::from_chars: the characters 0 through 9. -/
def isDigitCh (c : Char) : Bool :=
  decide (48 ≤ c.toNat) && decide (c.toNat ≤ 57)

/-- Numeric value of a digit character. -/
def digitVal (c : Char) : Nat :=
  c.toNat - 48

/-- Horner accumulation of a most-significant-first digit character list,
as std::from_chars accumulates the digits it consumes. -/
def digitsToNat (ds : List Char) : Nat :=
  ds.foldl (fun a c => 10 * a + digitVal c) 0

/-- Range check of std::from_chars for int: a value outside the 32-bit
range is reported as out of range and the output variable is not written. -/
def fitInt (v : Int) : Option Int :=
  if -(2 ^ 31) ≤ v ∧ v < 2 ^ 31 then some v else none

/-- std::from_chars(first, last, x) for int over a character range: an
optional minus sign followed by at least one decimal digit, stopping at the
first non-digit; no sign alone, no plus sign, no leading whitespace.  The
result is none when no digit is consumed or the value is out of range, in
which case the C++ leaves the output variable unwritten. -/
def fromChars (cs : List Char) : Option Int :=
  match cs with
  | [] => none
  | c :: rest =>
    if c = '-' then
      let ds := rest.takeWhile isDigitCh
      if ds = [] then none else fitInt (-(digitsToNat ds : Int))
    else
      let ds := (c :: rest).takeWhile isDigitCh
      if ds = [] then none else fitInt ((digitsToNat ds : Int))

/-- Geometry::parse_points (lines 19-44) on the suffix of the points string
that starts at cur.  Each iteration takes x_coord_end as the position of
the first comma at or after cur (end of string when absent), y_coord_end as
the position of the first semicolon at or after cur (end of string when
absent), parses x from the range before the comma and y from the range
between comma and semicolon, pushes the pair and continues one past the
semicolon.  The C++ leaves x resp. y indeterminate when its from_chars
call consumes no digits (and when the y range is reversed, where the C++
range is invalid); the model then uses 0, and no verified property depends
on that value. -/
def parsePointsAux : List Char → List (Int × Int)
  | [] => []
  | c :: rest =>
    let s := c :: rest
    let xEnd := s.findIdx fun ch => decide (ch = ',')
    let yEnd := s.findIdx fun ch => decide (ch = ';')
    let xv := (fromChars (s.take xEnd)).getD 0
    let yv :=
      if xEnd + 1 ≤ yEnd then
        (fromChars ((s.drop (xEnd + 1)).take (yEnd - (xEnd + 1)))).getD 0
      else 0
    (xv, yv) :: parsePointsAux (s.drop (yEnd + 1))
termination_by s => s.length
decreasing_by
  simp only [List.length_drop, List.length_cons]
  omega

/-- Geometry::parse_points on the whole points attribute string. -/
def parse_points (s : String) : List (Int × Int) :=
  parsePointsAux s.toList

/-- Pixel characterisation of the box branch: the filled region is the
half-open rectangle from (xtl, ytl) to (xbr, ybr), clipped to the canvas. -/
theorem boxCover_iff (xtl ytl xbr ybr x y : Int) :
    boxCover xtl ytl xbr ybr x y = true
      ↔ xtl ≤ x ∧ x < xbr ∧ ytl ≤ y ∧ y < ybr := by
  simp only [boxCover, Bool.and_eq_true, decide_eq_true_eq]
  omega

/-- Claim C2, counterexample: the box (xtl=2, ytl=2, xbr=5, ybr=5) drawn on
an all-background 10 x 10 canvas leaves pixel (5, 5) at background (and
likewise the whole row y = 5 and column x = 5), while the claim requires
every pixel with 2 <= x <= 5 and 2 <= y <= 5, in particular (5, 5), to be
set to 255.  The interior corner (4, 4) is set. -/
theorem box_inclusive_counterexample :
    ((Geometry.mk (Shape.box 2 2 5 5) "car" none).draw_mask
        (Image.mk "a" 10 10 []).empty_mask).pix 5 5 = 0
    ∧ ((Geometry.mk (Shape.box 2 2 5 5) "car" none).draw_mask
        (Image.mk "a" 10 10 []).empty_mask).pix 5 2 = 0
    ∧ ((Geometry.mk (Shape.box 2 2 5 5) "car" none).draw_mask
        (Image.mk "a" 10 10 []).empty_mask).pix 2 5 = 0
    ∧ ((Geometry.mk (Shape.box 2 2 5 5) "car" none).draw_mask
        (Image.mk "a" 10 10 []).empty_mask).pix 4 4 = 255 := by
  refine ⟨by decide, by decide, by decide, by decide⟩

/-- Claim C2 (amended): rasterizing a Box geometry with corners
(xtl, ytl, xbr, ybr) onto a canvas sets to foreground (255) exactly the
pixels of the half-open rectangle xtl <= x < xbr, ytl <= y < ybr (clipped
to the canvas) and leaves every other pixel unchanged; in particular the
box (xtl=2, ytl=2, xbr=5, ybr=5) on a 10 x 10 canvas sets exactly the
pixels with 2 <= x <= 4 and 2 <= y <= 4. -/
theorem box_draw_halfopen :
    (∀ (xtl ytl xbr ybr : Int) (lb : String) (gr : Option Nat) (m : Mask)
        (x y : Nat), x < m.width → y < m.height →
      ((Geometry.mk (Shape.box xtl ytl xbr ybr) lb gr).draw_mask m).pix x y
        = if xtl ≤ (x : Int) ∧ (x : Int) < xbr ∧ ytl ≤ (y : Int) ∧ (y : Int) < ybr
          then 255 else m.pix x y)
    ∧ (∀ x y : Nat, x < 10 → y < 10 →
      ((Geometry.mk (Shape.box 2 2 5 5) "car" none).draw_mask
          (Image.mk "a" 10 10 []).empty_mask).pix x y
        = if 2 ≤ x ∧ x ≤ 4 ∧ 2 ≤ y ∧ y ≤ 4 then 255 else 0) := by
  have key : ∀ (xtl ytl xbr ybr : Int) (lb : String) (gr : Option Nat)
      (m : Mask) (x y : Nat), x < m.width → y < m.height →
      ((Geometry.mk (Shape.box xtl ytl xbr ybr) lb gr).draw_mask m).pix x y
        = if xtl ≤ (x : Int) ∧ (x : Int) < xbr ∧ ytl ≤ (y : Int) ∧ (y : Int) < ybr
          then 255 else m.pix x y := by
    intro xtl ytl xbr ybr lb gr m x y hx hy
    rw [draw_mask_pix]
    have hcov : coversPix m.width m.height ⟨Shape.box xtl ytl xbr ybr, lb, gr⟩ x y = true
        ↔ (xtl ≤ (x : Int) ∧ (x : Int) < xbr ∧ ytl ≤ (y : Int) ∧ (y : Int) < ybr) := by
      simp only [coversPix, shapeCover, Bool.and_eq_true, decide_eq_true_eq, boxCover_iff]
      tauto
    by_cases hc : xtl ≤ (x : Int) ∧ (x : Int) < xbr ∧ ytl ≤ (y : Int) ∧ (y : Int) < ybr
    · rw [if_pos (hcov.mpr hc), if_pos hc]
    · rw [if_neg (fun hh => hc (hcov.mp hh)), if_neg hc]
  refine ⟨key, ?_⟩
  intro x y hx hy
  rw [key 2 2 5 5 "car" none _ x y hx hy]
  have hiff : (2 ≤ (x : Int) ∧ (x : Int) < 5 ∧ 2 ≤ (y : Int) ∧ (y : Int) < 5)
      ↔ (2 ≤ x ∧ x ≤ 4 ∧ 2 ≤ y ∧ y ≤ 4) := by omega
  by_cases hc : 2 ≤ x ∧ x ≤ 4 ∧ 2 ≤ y ∧ y ≤ 4
  · rw [if_pos (hiff.mpr hc), if_pos hc]
  · rw [if_neg (fun hh => hc (hiff.mp hh)), if_neg hc]
    rfl

/-- Witness for box_draw_halfopen at the canvas boundary pixels of the
concrete 10 x 10 example. -/
theorem box_draw_halfopen_witness :
    ((4 : Nat) < 10 ∧ (5 : Nat) < 10)
    ∧ ((Geometry.mk (Shape.box 2 2 5 5) "car" none).draw_mask
        (Image.mk "a" 10 10 []).empty_mask).pix 4 5
      = if 2 ≤ (4 : Nat) ∧ (4 : Nat) ≤ 4 ∧ 2 ≤ (5 : Nat) ∧ (5 : Nat) ≤ 4 then 255 else 0 :=
  ⟨by decide, box_draw_halfopen.2 4 5 (by decide) (by decide)⟩

/-- Claim C8: every mask starts all background (Image::empty_mask fills the
canvas with 0), pixel values stay within the set of 0 and 255, and drawing
is monotonic: Geometry::draw_mask only ever writes 255, so a pixel at 255
stays at 255 and no draw resets a pixel to 0; this holds uniformly for the
rasterization of every shape kind, since every branch of the dispatch
draws with colour 255. -/
theorem mask_invariant :
    (∀ (img : Image) (x y : Nat), img.empty_mask.pix x y = 0)
    ∧ (∀ (g : Geometry) (m : Mask) (x y : Nat),
        m.pix x y = 0 ∨ m.pix x y = 255 →
        ((g.draw_mask m).pix x y = 0 ∨ (g.draw_mask m).pix x y = 255))
    ∧ (∀ (g : Geometry) (m : Mask) (x y : Nat),
        m.pix x y = 255 → (g.draw_mask m).pix x y = 255) := by
  refine ⟨fun img x y => rfl, ?_, ?_⟩
  · intro g m x y hm
    rw [draw_mask_pix]
    by_cases hc : coversPix m.width m.height g x y = true
    · rw [if_pos hc]; exact Or.inr rfl
    · rw [if_neg hc]; exact hm
  · intro g m x y hm
    rw [draw_mask_pix]
    by_cases hc : coversPix m.width m.height g x y = true
    · rw [if_pos hc]
    · rw [if_neg hc]; exact hm

/-- Witness for mask_invariant: a concrete empty canvas, a draw on a
background pixel, and a draw on a pixel already at 255. -/
theorem mask_invariant_witness :
    ((Image.mk "a" 2 2 []).empty_mask.pix 0 0 = 0)
    ∧ (((Geometry.mk (Shape.box 0 0 1 1) "car" none).draw_mask
          (Image.mk "a" 2 2 []).empty_mask).pix 1 1 = 0
        ∨ ((Geometry.mk (Shape.box 0 0 1 1) "car" none).draw_mask
          (Image.mk "a" 2 2 []).empty_mask).pix 1 1 = 255)
    ∧ (((Geometry.mk (Shape.box 0 0 1 1) "car" none).draw_mask
          ((Geometry.mk (Shape.box 0 0 2 2) "car" none).draw_mask
            (Image.mk "a" 2 2 []).empty_mask)).pix 1 1 = 255) :=
  ⟨mask_invariant.1 (Image.mk "a" 2 2 []) 0 0,
   mask_invariant.2.1 (Geometry.mk (Shape.box 0 0 1 1) "car" none)
     (Image.mk "a" 2 2 []).empty_mask 1 1 (Or.inl (by decide)),
   mask_invariant.2.2 (Geometry.mk (Shape.box 0 0 1 1) "car" none)
     ((Geometry.mk (Shape.box 0 0 2 2) "car" none).draw_mask
       (Image.mk "a" 2 2 []).empty_mask) 1 1 (by decide)⟩

/-- The width of the canvas is unchanged by the label-filtered draw loop of
Image::mask_combined. -/
theorem foldl_mask_width (label : String) (gs : List Geometry) (m : Mask) :
    (gs.foldl (fun acc g => if g.label = label then g.draw_mask acc else acc)
        m).width = m.width := by
  induction gs generalizing m with
  | nil => rfl
  | cons g t ih =>
    simp only [List.foldl_cons]
    by_cases hg : g.label = label
    · rw [if_pos hg, ih]; rfl
    · rw [if_neg hg, ih]

/-- The height of the canvas is unchanged by the label-filtered draw loop. -/
theorem foldl_mask_height (label : String) (gs : List Geometry) (m : Mask) :
    (gs.foldl (fun acc g => if g.label = label then g.draw_mask acc else acc)
        m).height = m.height := by
  induction gs generalizing m with
  | nil => rfl
  | cons g t ih =>
    simp only [List.foldl_cons]
    by_cases hg : g.label = label
    · rw [if_pos hg, ih]; rfl
    · rw [if_neg hg, ih]

/-- Pixel characterisation of the draw loop of Image::mask_combined: a
pixel ends at 255 exactly when some geometry of the list carries the
requested label and covers it, and otherwise keeps its initial value. -/
theorem foldl_mask_pix (label : String) (gs : List Geometry) (m : Mask)
    (x y : Nat) :
    (gs.foldl (fun acc g => if g.label = label then g.draw_mask acc else acc)
        m).pix x y
      = if gs.any (fun g =>
            decide (g.label = label) && coversPix m.width m.height g x y)
        then 255 else m.pix x y := by
  induction gs generalizing m with
  | nil => simp
  | cons g t ih =>
    simp only [List.foldl_cons, List.any_cons]
    by_cases hg : g.label = label
    · rw [if_pos hg]
      rw [ih (g.draw_mask m)]
      simp only [draw_mask_width, draw_mask_height, draw_mask_pix]
      by_cases hc : coversPix m.width m.height g x y = true
      · simp [hg, hc]
      · simp only [Bool.not_eq_true] at hc
        simp [hg, hc]
    · rw [if_neg hg]
      rw [ih m]
      simp [hg]

/-- The independent rasterization of one geometry: the shape drawn alone on
an all-background canvas of the image's dimensions. -/
def independent (img : Image) (g : Geometry) : Mask :=
  g.draw_mask img.empty_mask

/-- Pixel-wise union (OR on values 0 and 255, i.e. max) of a list of
canvases. -/
def unionPix (ms : List Mask) (x y : Nat) : Nat :=
  ms.foldl (fun a m => max a (m.pix x y)) 0

/-- Folding max over independently rasterized geometries yields 255 exactly
on the pixels one of them covers. -/
theorem unionPix_indep (img : Image) (gs : List Geometry) (x y : Nat) :
    unionPix (gs.map (independent img)) x y
      = if gs.any (fun g => coversPix img.width img.height g x y)
        then 255 else 0 := by
  have key : ∀ (gs : List Geometry) (a : Nat),
      (gs.map (independent img)).foldl (fun a m => max a (m.pix x y)) a
        = max a (if gs.any (fun g => coversPix img.width img.height g x y)
                 then 255 else 0) := by
    intro gs
    induction gs with
    | nil => intro a; simp
    | cons g t ih =>
      intro a
      simp only [List.map_cons, List.foldl_cons, List.any_cons, ih]
      have hv : (independent img g).pix x y
          = if coversPix img.width img.height g x y then 255 else 0 := rfl
      rw [hv]
      by_cases hc : coversPix img.width img.height g x y = true
      · simp only [hc, Bool.true_or, if_true, Nat.max_assoc]
        have : max (255 : Nat)
            (if t.any (fun g => coversPix img.width img.height g x y)
             then 255 else 0) = 255 := by
          by_cases ht : t.any (fun g => coversPix img.width img.height g x y) = true
          · rw [if_pos ht]; exact Nat.max_self 255
          · rw [if_neg ht]; exact Nat.max_eq_left (Nat.zero_le _)
        rw [this]
      · simp only [Bool.not_eq_true] at hc
        simp [hc]
  rw [unionPix, key, Nat.zero_max]

/-- Two lists that are permutations of one another agree on any. -/
theorem any_perm {α : Type} {l1 l2 : List α} (h : l1.Perm l2) (p : α → Bool) :
    l1.any p = l2.any p := by
  induction h with
  | nil => rfl
  | cons a _ ih => simp only [List.any_cons, ih]
  | swap a b l =>
    simp only [List.any_cons, ← Bool.or_assoc, Bool.or_comm (p b) (p a)]
  | trans _ _ ih1 ih2 => exact ih1.trans ih2

/-- Claim C3: for every image and label, the combined mask of
Image::mask_combined agrees pixel for pixel with the pixel-wise union (OR)
of the independent rasterizations of the geometries of the image carrying
that label, and it is invariant under any permutation of the draw order of
the image's geometries. -/
theorem mask_combined_union :
    ∀ (img : Image) (label : String),
    (∀ x y : Nat, (img.mask_combined label).pix x y
        = unionPix ((img.geometries.filter fun g => decide (g.label = label)).map
            (independent img)) x y)
    ∧ (∀ gs' : List Geometry, gs'.Perm img.geometries → ∀ x y : Nat,
        ((Image.mk img.filename img.width img.height gs').mask_combined
            label).pix x y
          = (img.mask_combined label).pix x y) := by
  intro img label
  constructor
  · intro x y
    rw [Image.mask_combined, foldl_mask_pix, unionPix_indep]
    have hany : (img.geometries.filter fun g => decide (g.label = label)).any
          (fun g => coversPix img.width img.height g x y)
        = img.geometries.any (fun g =>
            decide (g.label = label) && coversPix img.width img.height g x y) := by
      simp [List.any_filter]
    rw [hany]
    rfl
  · intro gs' hperm x y
    rw [Image.mask_combined, Image.mask_combined, foldl_mask_pix, foldl_mask_pix]
    rw [any_perm hperm]
    rfl

/-- Witness for mask_combined_union: a concrete two-geometry image and its
reversal. -/
theorem mask_combined_union_witness :
    ([Geometry.mk (Shape.box 1 1 3 3) "car" none,
      Geometry.mk (Shape.box 0 0 2 2) "car" none].Perm
        [Geometry.mk (Shape.box 0 0 2 2) "car" none,
         Geometry.mk (Shape.box 1 1 3 3) "car" none])
    ∧ ((Image.mk "a" 4 4
          [Geometry.mk (Shape.box 1 1 3 3) "car" none,
           Geometry.mk (Shape.box 0 0 2 2) "car" none]).mask_combined
            "car").pix 2 2
      = ((Image.mk "a" 4 4
          [Geometry.mk (Shape.box 0 0 2 2) "car" none,
           Geometry.mk (Shape.box 1 1 3 3) "car" none]).mask_combined
            "car").pix 2 2 :=
  ⟨List.Perm.swap _ _ _,
   (mask_combined_union
      (Image.mk "a" 4 4
        [Geometry.mk (Shape.box 0 0 2 2) "car" none,
         Geometry.mk (Shape.box 1 1 3 3) "car" none]) "car").2
     [Geometry.mk (Shape.box 1 1 3 3) "car" none,
      Geometry.mk (Shape.box 0 0 2 2) "car" none]
     (List.Perm.swap _ _ _) 2 2⟩

/-- Claim C7, counterexample: a document declaring the label name car twice
yields a catalog that contains car twice, while the claim requires each
label name to appear at most once even when the document declares it more
than once. -/
theorem labels_dedup_counterexample :
    (CVATMaskGenerator.labels [LabelDecl.mk "car", LabelDecl.mk "car"]).count
        "car" = 2 := by
  decide

/-- getD of a mapped list under the index bound. -/
theorem getD_map {α β : Type} (f : α → β) (l : List α) (j : Nat)
    (hj : j < l.length) (d : α) (d2 : β) :
    (l.map f).getD j d2 = f (l.getD j d) := by
  induction l generalizing j with
  | nil => cases hj
  | cons a t ih =>
    cases j with
    | zero => rfl
    | succ j =>
      simp only [List.map_cons, List.getD_cons_succ]
      exact ih j (by simpa using hj)

/-- Claim C7 (amended): CVATMaskGenerator::labels preserves the declaration
order and the declaration count of the document's label declarations: the
catalog has one entry per declaration, the entry at each position is the
name declared at that position, and each name occurs in the catalog exactly
as often as it is declared; duplicates are not removed. -/
theorem labels_order_multiplicity :
    ∀ decls : List LabelDecl,
    (CVATMaskGenerator.labels decls).length = decls.length
    ∧ (∀ j : Nat, j < decls.length →
        (CVATMaskGenerator.labels decls).getD j ""
          = (decls.getD j default).name)
    ∧ (∀ s : String, (CVATMaskGenerator.labels decls).count s
        = decls.countP fun d => d.name == s) := by
  intro decls
  refine ⟨List.length_map decls LabelDecl.name, ?_, ?_⟩
  · intro j hj
    exact getD_map LabelDecl.name decls j hj default ""
  · intro s
    rw [List.count_eq_countP, CVATMaskGenerator.labels, List.countP_map]
    rfl

/-- Witness for labels_order_multiplicity on a concrete two-entry
declaration list. -/
theorem labels_order_multiplicity_witness :
    (1 : Nat) < ([LabelDecl.mk "car", LabelDecl.mk "plate"] : List LabelDecl).length
    ∧ (CVATMaskGenerator.labels [LabelDecl.mk "car", LabelDecl.mk "plate"]).getD 1 ""
      = (([LabelDecl.mk "car", LabelDecl.mk "plate"] : List LabelDecl).getD 1
          default).name :=
  ⟨by decide,
   (labels_order_multiplicity [LabelDecl.mk "car", LabelDecl.mk "plate"]).2.1 1
     (by decide)⟩

/-- A Nodup list counts each of its members exactly once. -/
theorem countP_eq_one_of_nodup_mem {labels : List String} {l : String}
    (hn : labels.Nodup) (hm : l ∈ labels) :
    labels.countP (fun x => decide (x = l)) = 1 := by
  induction labels with
  | nil => cases hm
  | cons a t ih =>
    rcases List.mem_cons.mp hm with h | h
    · subst h
      rw [List.countP_cons_of_pos _ _ (by simp)]
      have hnotin : l ∉ t := (List.nodup_cons.mp hn).1
      have hz : t.countP (fun x => decide (x = l)) = 0 :=
        List.countP_eq_zero.mpr fun x hx hpx => by
          have : x = l := by simpa using hpx
          exact hnotin (this ▸ hx)
      rw [hz]
    · have hne : a ≠ l := by
        intro he
        exact (List.nodup_cons.mp hn).1 (he ▸ h)
      rw [List.countP_cons_of_neg _ _ (by simpa using hne)]
      exact ih (List.nodup_cons.mp hn).2 h

/-- The emissions of one image's task: how often a (label, filename) pair
occurs among them. -/
theorem countP_image_block (labels : List String) (img : Image) (l : String)
    (tp : String) :
    (labels.map fun l' => (l', pngName img.filename, img.mask_combined l')).countP
        (fun o => decide (o.1 = l) && decide (o.2.1 = tp))
      = if pngName img.filename = tp
        then labels.countP (fun x => decide (x = l)) else 0 := by
  rw [List.countP_map]
  by_cases hp : pngName img.filename = tp
  · rw [if_pos hp]
    exact List.countP_congr fun x hx => by simp [Function.comp, hp]
  · rw [if_neg hp]
    exact List.countP_eq_zero.mpr fun x hx => by simp [Function.comp, hp]

/-- Among the whole emission list, a (label, output filename) pair of the
document occurs exactly once, provided catalog entries and output
filenames are distinct. -/
theorem countP_flatMap_unique (labels : List String) (l : String)
    (hND : labels.Nodup) (hl : l ∈ labels) :
    ∀ (images : List Image) (img : Image), img ∈ images →
    (images.map fun i => pngName i.filename).Nodup →
    (images.flatMap fun i =>
        labels.map fun l' => (l', pngName i.filename, i.mask_combined l')).countP
        (fun o => decide (o.1 = l) && decide (o.2.1 = pngName img.filename))
      = 1 := by
  intro images
  induction images with
  | nil => intro img h; cases h
  | cons i t ih =>
    intro img hmem hnd
    have hhead : pngName i.filename ∉ t.map fun i2 => pngName i2.filename :=
      (List.nodup_cons.mp (by simpa using hnd)).1
    have htail : (t.map fun i2 => pngName i2.filename).Nodup :=
      (List.nodup_cons.mp (by simpa using hnd)).2
    rw [List.flatMap_cons, List.countP_append, countP_image_block]
    rcases List.mem_cons.mp hmem with h | h
    · subst h
      rw [if_pos rfl, countP_eq_one_of_nodup_mem hND hl]
      have hz : (t.flatMap fun i2 =>
          labels.map fun l' => (l', pngName i2.filename, i2.mask_combined l')).countP
          (fun o => decide (o.1 = l) && decide (o.2.1 = pngName img.filename))
          = 0 := by
        refine List.countP_eq_zero.mpr fun o ho hpred => ?_
        rcases List.mem_flatMap.mp ho with ⟨i2, hi2, ho2⟩
        rcases List.mem_map.mp ho2 with ⟨l', hl', rfl⟩
        have : pngName i2.filename = pngName img.filename := by
          simpa using (Bool.and_eq_true _ _ |>.mp hpred).2
        exact hhead (this ▸ List.mem_map_of_mem _ hi2)
      rw [hz]
    · have hne : pngName i.filename ≠ pngName img.filename := by
        intro he
        exact hhead (he ▸ List.mem_map_of_mem _ h)
      rw [if_neg hne, ih img h htail]

/-- Claim C4: write_masks_to_directory emits exactly one mask per pair of a
catalog entry and an image: the emission list has length image count times
catalog size; every emission is the combined mask of one image for one
catalog label, tagged with the image's filename with its extension replaced
by png; when the catalog entries and the output filenames are distinct,
each (label, output filename) pair is emitted exactly once — no duplicates
and no omissions; and a label with no geometry in an image still gets its
emission, whose mask is all background. -/
theorem pipeline_pairs :
    ∀ doc : CVATDoc,
    ((write_masks_to_directory doc).2.length
        = doc.images.length * (CVATMaskGenerator.labels doc.labelDecls).length)
    ∧ (∀ o ∈ (write_masks_to_directory doc).2,
        ∃ img ∈ doc.images, ∃ l ∈ CVATMaskGenerator.labels doc.labelDecls,
          o = (l, pngName img.filename, img.mask_combined l))
    ∧ ((CVATMaskGenerator.labels doc.labelDecls).Nodup →
       (doc.images.map fun img => pngName img.filename).Nodup →
       ∀ l ∈ CVATMaskGenerator.labels doc.labelDecls, ∀ img ∈ doc.images,
         (write_masks_to_directory doc).2.countP
             (fun o => decide (o.1 = l) && decide (o.2.1 = pngName img.filename))
           = 1)
    ∧ (∀ (img : Image) (l : String),
        (∀ g ∈ img.geometries, g.label ≠ l) →
        ∀ x y : Nat, (img.mask_combined l).pix x y = 0) := by
  intro doc
  refine ⟨?_, ?_, ?_, ?_⟩
  · show (doc.images.flatMap fun img =>
        (CVATMaskGenerator.labels doc.labelDecls).map fun l =>
          (l, pngName img.filename, img.mask_combined l)).length = _
    induction doc.images with
    | nil => simp
    | cons i t ih =>
      simp only [List.flatMap_cons, List.length_append, List.length_map, ih,
        List.length_cons]
      ring
  · intro o ho
    rcases List.mem_flatMap.mp ho with ⟨img, himg, ho2⟩
    rcases List.mem_map.mp ho2 with ⟨l, hl, rfl⟩
    exact ⟨img, himg, l, hl, rfl⟩
  · intro hND hPD l hl img himg
    exact countP_flatMap_unique _ l hND hl doc.images img himg hPD
  · intro img l hno x y
    rw [Image.mask_combined, foldl_mask_pix]
    have hz : img.geometries.any (fun g =>
        decide (g.label = l) && coversPix img.empty_mask.width
          img.empty_mask.height g x y) = false := by
      rw [List.any_eq_false]
      intro g hg
      simp [hno g hg]
    rw [hz]
    rfl

/-- Witness for pipeline_pairs on a concrete document with two catalog
labels and one image carrying no geometry. -/
theorem pipeline_pairs_witness :
    (CVATMaskGenerator.labels
        (CVATDoc.mk [LabelDecl.mk "car", LabelDecl.mk "plate"]
          [Image.mk "i.jpg" 2 2 []]).labelDecls).Nodup
    ∧ ((CVATDoc.mk [LabelDecl.mk "car", LabelDecl.mk "plate"]
          [Image.mk "i.jpg" 2 2 []]).images.map fun img =>
            pngName img.filename).Nodup
    ∧ ((write_masks_to_directory
          (CVATDoc.mk [LabelDecl.mk "car", LabelDecl.mk "plate"]
            [Image.mk "i.jpg" 2 2 []])).2.countP
          (fun o => decide (o.1 = "car")
            && decide (o.2.1 = pngName (Image.mk "i.jpg" 2 2 []).filename)) = 1)
    ∧ ((Image.mk "i.jpg" 2 2 []).mask_combined "plate").pix 0 0 = 0 :=
  ⟨by decide, by decide,
   (pipeline_pairs
      (CVATDoc.mk [LabelDecl.mk "car", LabelDecl.mk "plate"]
        [Image.mk "i.jpg" 2 2 []])).2.2.1 (by decide) (by decide)
     "car" (by decide) (Image.mk "i.jpg" 2 2 []) (by decide),
   (pipeline_pairs
      (CVATDoc.mk [LabelDecl.mk "car", LabelDecl.mk "plate"]
        [Image.mk "i.jpg" 2 2 []])).2.2.2 (Image.mk "i.jpg" 2 2 []) "plate"
     (fun g hg => by cases hg) 0 0⟩

/-- Mapping every element to the empty list flattens to the empty list. -/
theorem flatMap_const_nil {A B : Type} (l : List A) :
    (l.flatMap fun _ => ([] : List B)) = [] := by
  induction l with
  | nil => rfl
  | cons a t ih => simp [ih]

/-- Claim C6, counterexample: on an input document that cannot be read
(pugi::xml_document::load_file fails, its result being discarded by
CVATMaskGenerator::from_file), the run indeed creates no directories and
writes no masks — but it finishes with exit code 0 instead of the non-zero
exit the claim requires: no exception is raised, so main never takes its
catch branch. -/
theorem parse_failure_counterexample :
    mainRun none (fun _ _ => true)
      = (0, ([] : List String), ([] : List (String × String × Bool))) := by
  decide

/-- Claim C6 (amended): if the input document cannot be read, or it parses
but lacks the required structure (no annotations/meta/task/labels content,
hence an empty catalog), the run produces no output — no label directories
and no mask files — but it completes silently with exit code 0 rather than
aborting with a non-zero exit code and a message; only a nonexistent input
path is rejected before the run by the CLI existing-file check. -/
theorem parse_failure_silent :
    ∀ (loaded : Option CVATDoc) (sinkOk : String → String → Bool),
    (loaded = none ∨ ∃ d, loaded = some d ∧ d.labelDecls = []) →
    mainRun loaded sinkOk
      = (0, ([] : List String), ([] : List (String × String × Bool))) := by
  intro loaded sinkOk h
  have hdecls : (CVATMaskGenerator.from_file loaded).labelDecls = [] := by
    rcases h with rfl | ⟨d, rfl, hd⟩
    · rfl
    · exact hd
  rw [mainRun, write_masks_to_directory]
  rcases hld : CVATMaskGenerator.from_file loaded with ⟨decls, images⟩
  rw [hld] at hdecls
  simp only at hdecls
  subst hdecls
  have hmaps : (images.flatMap fun img =>
      (CVATMaskGenerator.labels []).map fun l =>
        (l, pngName img.filename, img.mask_combined l)) = [] :=
    flatMap_const_nil images
  simp [CVATMaskGenerator.labels, hmaps]

/-- Witness for parse_failure_silent at a failed document load. -/
theorem parse_failure_silent_witness :
    ((none : Option CVATDoc) = none
      ∨ ∃ d, (none : Option CVATDoc) = some d ∧ d.labelDecls = [])
    ∧ mainRun none (fun _ _ => false)
      = (0, ([] : List String), ([] : List (String × String × Bool))) :=
  ⟨Or.inl rfl, parse_failure_silent none (fun _ _ => false) (Or.inl rfl)⟩

/-- Claim C9: main exits 0 and reports nothing when a mask write fails.
The failing input is a document with the single catalog label car and one
image named img.jpg with no geometry, with a sink that fails every write:
the write of car/img.png fails (flag false in the modelled write list),
yet the modelled run returns exit code 0 and the failure is recorded
nowhere the C++ caller can see — cv::imwrite's false return is discarded
and the futures are waited with wait(), which, unlike get(), does not
rethrow a stored exception, so no error reaches main. -/
theorem sink_error_swallowed :
    mainRun
        (some (CVATDoc.mk [LabelDecl.mk "car"] [Image.mk "img.jpg" 2 2 []]))
        (fun _ _ => false)
      = (0, ["car"],
         [("car", "img.png", false)]) := by
  decide

/-- The canonical well-formed coordinate strings of the claim are built by
the render functions below: they produce exactly the strings of the form
x1,y1;x2,y2;...;xn,yn with decimal integer coordinates.  toDigitChar maps
a digit value to its character. -/
def toDigitChar (d : Nat) : Char :=
  match d with
  | 0 => '0'
  | 1 => '1'
  | 2 => '2'
  | 3 => '3'
  | 4 => '4'
  | 5 => '5'
  | 6 => '6'
  | 7 => '7'
  | 8 => '8'
  | _ => '9'

/-- Least-significant-first digit characters of n, with enough fuel. -/
def renderNatAux : Nat → Nat → List Char
  | 0, _ => []
  | _ + 1, 0 => []
  | fuel + 1, n + 1 =>
    toDigitChar ((n + 1) % 10) :: renderNatAux fuel ((n + 1) / 10)

/-- Decimal rendering of a natural number, most significant digit first. -/
def renderNat (n : Nat) : List Char :=
  if n = 0 then ['0'] else (renderNatAux n n).reverse

/-- Decimal rendering of an integer: optional minus sign, then digits. -/
def renderInt (v : Int) : List Char :=
  if v < 0 then '-' :: renderNat v.natAbs else renderNat v.toNat

/-- Rendering of one coordinate pair: x, a comma, y. -/
def renderPoint (p : Int × Int) : List Char :=
  renderInt p.1 ++ ',' :: renderInt p.2

/-- Rendering of a coordinate list: pairs joined by semicolons. -/
def renderPoints : List (Int × Int) → List Char
  | [] => []
  | [p] => renderPoint p
  | p :: q :: rest => renderPoint p ++ ';' :: renderPoints (q :: rest)

/-- A coordinate value representable in the 32-bit int the C++ parses
into. -/
def fits (v : Int) : Prop :=
  -(2 ^ 31) ≤ v ∧ v < 2 ^ 31

/-- Value of a least-significant-first digit character list. -/
def valLSD : List Char → Nat
  | [] => 0
  | c :: t => digitVal c + 10 * valLSD t

/-- The rendered digit character carries its digit value back. -/
theorem digitVal_toDigitChar {d : Nat} (hd : d < 10) :
    digitVal (toDigitChar d) = d := by
  interval_cases d <;> rfl

/-- Every rendered digit character passes the digit test. -/
theorem isDigitCh_toDigitChar (d : Nat) : isDigitCh (toDigitChar d) = true := by
  unfold toDigitChar
  split <;> decide

/-- Horner accumulation over an appended final digit. -/
theorem digitsToNat_append (A : List Char) (c : Char) :
    digitsToNat (A ++ [c]) = 10 * digitsToNat A + digitVal c := by
  rw [digitsToNat, digitsToNat, List.foldl_append]
  rfl

/-- Reversing a least-significant-first digit list gives the Horner
value. -/
theorem digitsToNat_reverse (L : List Char) :
    digitsToNat L.reverse = valLSD L := by
  induction L with
  | nil => rfl
  | cons c t ih =>
    rw [List.reverse_cons, digitsToNat_append, ih, valLSD]
    omega

/-- renderNatAux is correct when the fuel covers the value. -/
theorem valLSD_renderNatAux :
    ∀ (fuel n : Nat), n ≤ fuel → valLSD (renderNatAux fuel n) = n := by
  intro fuel
  induction fuel with
  | zero =>
    intro n hn
    interval_cases n
    rfl
  | succ fuel ih =>
    intro n hn
    cases n with
    | zero => rfl
    | succ m =>
      rw [renderNatAux, valLSD]
      have hdiv : (m + 1) / 10 ≤ fuel := by
        have h1 : (m + 1) / 10 < m + 1 := Nat.div_lt_self (Nat.succ_pos m) (by omega)
        omega
      rw [ih _ hdiv, digitVal_toDigitChar (Nat.mod_lt _ (by omega))]
      omega

/-- The decimal rendering of a natural number parses back to it. -/
theorem digitsToNat_renderNat (n : Nat) : digitsToNat (renderNat n) = n := by
  by_cases hn : n = 0
  · subst hn; decide
  · rw [renderNat, if_neg hn, digitsToNat_reverse]
    exact valLSD_renderNatAux n n (Nat.le_refl n)

/-- Every character of renderNatAux is a digit. -/
theorem renderNatAux_digits :
    ∀ (fuel n : Nat) (c : Char), c ∈ renderNatAux fuel n → isDigitCh c = true := by
  intro fuel
  induction fuel with
  | zero => intro n c hc; cases hc
  | succ fuel ih =>
    intro n c hc
    cases n with
    | zero => cases hc
    | succ m =>
      rw [renderNatAux] at hc
      rcases List.mem_cons.mp hc with h | h
      · subst h; exact isDigitCh_toDigitChar _
      · exact ih _ c h

/-- Every character of renderNat is a digit. -/
theorem renderNat_digits {n : Nat} {c : Char} (hc : c ∈ renderNat n) :
    isDigitCh c = true := by
  by_cases hn : n = 0
  · subst hn
    rcases List.mem_singleton.mp hc with rfl
    decide
  · rw [renderNat, if_neg hn] at hc
    exact renderNatAux_digits n n c (List.mem_reverse.mp hc)

/-- renderNat is never empty. -/
theorem renderNat_ne_nil (n : Nat) : renderNat n ≠ [] := by
  by_cases hn : n = 0
  · subst hn; decide
  · rw [renderNat, if_neg hn]
    intro he
    cases n with
    | zero => exact hn rfl
    | succ m =>
      rw [renderNatAux] at he
      simp at he

/-- A digit character is not a comma. -/
theorem digit_ne_comma {c : Char} (h : isDigitCh c = true) :
    decide (c = ',') = false := by
  by_cases hc : c = ','
  · subst hc; simp [isDigitCh] at h
  · simp [hc]

/-- A digit character is not a semicolon. -/
theorem digit_ne_semi {c : Char} (h : isDigitCh c = true) :
    decide (c = ';') = false := by
  by_cases hc : c = ';'
  · subst hc; simp [isDigitCh] at h
  · simp [hc]

/-- A digit character is not a minus sign. -/
theorem digit_ne_minus {c : Char} (h : isDigitCh c = true) :
    (c = '-') = False := by
  by_cases hc : c = '-'
  · subst hc; simp [isDigitCh] at h
  · simp [hc]

/-- Every character of a rendered integer is a minus sign or a digit. -/
theorem renderInt_chars {v : Int} {c : Char} (hc : c ∈ renderInt v) :
    c = '-' ∨ isDigitCh c = true := by
  rw [renderInt] at hc
  by_cases hv : v < 0
  · rw [if_pos hv] at hc
    rcases List.mem_cons.mp hc with h | h
    · exact Or.inl h
    · exact Or.inr (renderNat_digits h)
  · rw [if_neg hv] at hc
    exact Or.inr (renderNat_digits hc)

/-- No character of a rendered integer is a comma. -/
theorem renderInt_no_comma {v : Int} {c : Char} (hc : c ∈ renderInt v) :
    decide (c = ',') = false := by
  rcases renderInt_chars hc with h | h
  · subst h; decide
  · exact digit_ne_comma h

/-- No character of a rendered integer is a semicolon. -/
theorem renderInt_no_semi {v : Int} {c : Char} (hc : c ∈ renderInt v) :
    decide (c = ';') = false := by
  rcases renderInt_chars hc with h | h
  · subst h; decide
  · exact digit_ne_semi h

/-- No character of a rendered pair is a semicolon. -/
theorem renderPoint_no_semi {p : Int × Int} {c : Char}
    (hc : c ∈ renderPoint p) : decide (c = ';') = false := by
  rw [renderPoint] at hc
  rcases List.mem_append.mp hc with h | h
  · exact renderInt_no_semi h
  · rcases List.mem_cons.mp h with h2 | h2
    · subst h2; decide
    · exact renderInt_no_semi h2

/-- takeWhile keeps a list all of whose elements pass the test. -/
theorem takeWhile_all {α : Type} {p : α → Bool} :
    ∀ {l : List α}, (∀ a ∈ l, p a = true) → l.takeWhile p = l := by
  intro l
  induction l with
  | nil => intro h; rfl
  | cons a t ih =>
    intro h
    rw [List.takeWhile_cons_of_pos (h a (List.mem_cons_self a t))]
    rw [ih fun b hb => h b (List.mem_cons_of_mem a hb)]

/-- renderInt is never empty. -/
theorem renderInt_ne_nil (v : Int) : renderInt v ≠ [] := by
  rw [renderInt]
  by_cases hv : v < 0
  · rw [if_pos hv]; intro h; cases h
  · rw [if_neg hv]; exact renderNat_ne_nil _

/-- std::from_chars parses the canonical decimal rendering of any value in
the int range back to that value. -/
theorem fromChars_renderInt {v : Int} (hv : fits v) :
    fromChars (renderInt v) = some v := by
  by_cases hneg : v < 0
  · rw [renderInt, if_pos hneg, fromChars]
    rw [if_pos rfl]
    have hall : (renderNat v.natAbs).takeWhile isDigitCh = renderNat v.natAbs :=
      takeWhile_all fun c hc => renderNat_digits hc
    rw [hall, if_neg (renderNat_ne_nil _), digitsToNat_renderNat, fitInt]
    rw [if_pos (by rcases hv with ⟨h1, h2⟩; omega)]
    congr 1
    omega
  · have hrend : renderInt v = renderNat v.toNat := by rw [renderInt, if_neg hneg]
    rcases hne : renderNat v.toNat with _ | ⟨c, t⟩
    · exact absurd hne (renderNat_ne_nil _)
    · have hcdig : isDigitCh c = true :=
        renderNat_digits (hne ▸ List.mem_cons_self c t)
      rw [hrend, hne, fromChars]
      rw [if_neg (by rw [digit_ne_minus hcdig]; exact id)]
      have hall : (c :: t).takeWhile isDigitCh = c :: t :=
        takeWhile_all fun b hb => renderNat_digits (hne ▸ hb)
      rw [hall, if_neg (by intro h; cases h)]
      have hval : digitsToNat (c :: t) = v.toNat := by
        rw [← hne, digitsToNat_renderNat]
      rw [hval, fitInt, if_pos (by rcases hv with ⟨h1, h2⟩; omega)]
      congr 1
      omega

/-- Unfolding of one iteration of the parse loop on a nonempty remaining
string. -/
theorem parsePointsAux_eq (s : List Char) (hs : s ≠ []) :
    parsePointsAux s
      = ((fromChars (s.take (s.findIdx fun ch => decide (ch = ',')))).getD 0,
         if (s.findIdx fun ch => decide (ch = ',')) + 1
             ≤ (s.findIdx fun ch => decide (ch = ';')) then
           (fromChars ((s.drop ((s.findIdx fun ch => decide (ch = ',')) + 1)).take
             ((s.findIdx fun ch => decide (ch = ';'))
               - ((s.findIdx fun ch => decide (ch = ',')) + 1)))).getD 0
         else 0)
        :: parsePointsAux (s.drop ((s.findIdx fun ch => decide (ch = ';')) + 1)) := by
  rcases s with _ | ⟨c, rest⟩
  · exact absurd rfl hs
  · rw [parsePointsAux]

/-- One loop iteration consumes one rendered pair: on input that starts
with a rendered pair followed by nothing, or by a semicolon and anything,
the loop emits exactly that pair and continues after the semicolon. -/
theorem parse_step (x y : Int) (hx : fits x) (hy : fits y) (tail : List Char)
    (htail : tail = [] ∨ ∃ R, tail = ';' :: R) :
    parsePointsAux (renderInt x ++ ',' :: (renderInt y ++ tail))
      = (x, y) :: parsePointsAux tail.tail := by
  have hAne : renderInt x ≠ [] := renderInt_ne_nil x
  have hsne : renderInt x ++ ',' :: (renderInt y ++ tail) ≠ [] := by
    rcases hAe : renderInt x with _ | ⟨c, t⟩
    · exact absurd hAe hAne
    · simp
  rw [parsePointsAux_eq _ hsne]
  have hxEnd : ((renderInt x ++ ',' :: (renderInt y ++ tail)).findIdx
      fun ch => decide (ch = ',')) = (renderInt x).length := by
    rw [List.findIdx_append]
    rw [List.findIdx_eq_length_of_false fun c hc => renderInt_no_comma hc]
    rw [if_neg (Nat.lt_irrefl _)]
    rw [List.findIdx_cons]
    simp
  have hassoc : renderInt x ++ ',' :: (renderInt y ++ tail)
      = (renderInt x ++ ',' :: renderInt y) ++ tail := by
    simp
  have htail0 : (tail.findIdx fun ch => decide (ch = ';')) = 0 := by
    rcases htail with rfl | ⟨R, rfl⟩
    · rfl
    · rw [List.findIdx_cons]
      simp
  have hyEnd : ((renderInt x ++ ',' :: (renderInt y ++ tail)).findIdx
      fun ch => decide (ch = ';'))
      = (renderInt x).length + 1 + (renderInt y).length := by
    rw [hassoc, List.findIdx_append]
    have hnosemi : ((renderInt x ++ ',' :: renderInt y).findIdx
        fun ch => decide (ch = ';')) = (renderInt x ++ ',' :: renderInt y).length :=
      List.findIdx_eq_length_of_false fun c hc => @renderPoint_no_semi (x, y) c hc
    rw [hnosemi, if_neg (Nat.lt_irrefl _), htail0]
    simp
    omega
  rw [hxEnd, hyEnd]
  have htake : (renderInt x ++ ',' :: (renderInt y ++ tail)).take
      (renderInt x).length = renderInt x := List.take_left _ _
  rw [htake, fromChars_renderInt hx]
  have hdropx : (renderInt x ++ ',' :: (renderInt y ++ tail)).drop
      ((renderInt x).length + 1) = renderInt y ++ tail := by
    have h2 : renderInt x ++ ',' :: (renderInt y ++ tail)
        = (renderInt x ++ [',']) ++ (renderInt y ++ tail) := by simp
    rw [h2]
    exact List.drop_left' (by simp)
  rw [hdropx]
  have harith : (renderInt x).length + 1 + (renderInt y).length
      - ((renderInt x).length + 1) = (renderInt y).length := by omega
  rw [harith]
  have htakey : (renderInt y ++ tail).take (renderInt y).length = renderInt y :=
    List.take_left _ _
  rw [if_pos (by omega), htakey, fromChars_renderInt hy]
  have hdropfin : (renderInt x ++ ',' :: (renderInt y ++ tail)).drop
      ((renderInt x).length + 1 + (renderInt y).length + 1) = tail.tail := by
    rw [hassoc]
    have hlen : (renderInt x ++ ',' :: renderInt y).length
        = (renderInt x).length + 1 + (renderInt y).length := by
      simp
      omega
    have h3 : (renderInt x).length + 1 + (renderInt y).length + 1
        = (renderInt x ++ ',' :: renderInt y).length + 1 := by omega
    rw [h3, ← List.drop_drop, List.drop_left, List.drop_one]
  rw [hdropfin]
  rfl

/-- The parse loop stops on an empty remaining string. -/
theorem parsePointsAux_nil : parsePointsAux [] = [] := by
  rw [parsePointsAux]

instance fitsDecidable (v : Int) : Decidable (fits v) := by
  unfold fits
  infer_instance

/-- The parse loop maps a rendered point list back to the points. -/
theorem parse_renderPoints :
    ∀ ps : List (Int × Int), (∀ p ∈ ps, fits p.1 ∧ fits p.2) →
    parsePointsAux (renderPoints ps) = ps := by
  intro ps
  induction ps with
  | nil => intro h; exact parsePointsAux_nil
  | cons p t ih =>
    intro h
    rcases p with ⟨px, py⟩
    have hfx : fits px := (h (px, py) (List.mem_cons_self _ _)).1
    have hfy : fits py := (h (px, py) (List.mem_cons_self _ _)).2
    cases t with
    | nil =>
      have hform : renderPoints [(px, py)]
          = renderInt px ++ ',' :: (renderInt py ++ []) := by
        simp [renderPoints, renderPoint]
      rw [hform, parse_step px py hfx hfy [] (Or.inl rfl)]
      rw [show ([] : List Char).tail = [] from rfl, parsePointsAux_nil]
    | cons q rest =>
      have hform : renderPoints ((px, py) :: q :: rest)
          = renderInt px ++ ',' :: (renderInt py
              ++ (';' :: renderPoints (q :: rest))) := by
        simp [renderPoints, renderPoint]
      rw [hform,
        parse_step px py hfx hfy (';' :: renderPoints (q :: rest))
          (Or.inr ⟨renderPoints (q :: rest), rfl⟩)]
      have ht : (';' :: renderPoints (q :: rest)).tail
          = renderPoints (q :: rest) := rfl
      rw [ht, ih fun b hb => h b (List.mem_cons_of_mem _ hb)]

/-- The parse loop tolerates one trailing semicolon after a nonempty
rendered point list. -/
theorem parse_renderPoints_trailing :
    ∀ ps : List (Int × Int), (∀ p ∈ ps, fits p.1 ∧ fits p.2) → ps ≠ [] →
    parsePointsAux (renderPoints ps ++ [';']) = ps := by
  intro ps
  induction ps with
  | nil => intro h hne; exact absurd rfl hne
  | cons p t ih =>
    intro h hne
    rcases p with ⟨px, py⟩
    have hfx : fits px := (h (px, py) (List.mem_cons_self _ _)).1
    have hfy : fits py := (h (px, py) (List.mem_cons_self _ _)).2
    cases t with
    | nil =>
      have hform : renderPoints [(px, py)] ++ [';']
          = renderInt px ++ ',' :: (renderInt py ++ (';' :: [])) := by
        simp [renderPoints, renderPoint]
      rw [hform, parse_step px py hfx hfy (';' :: []) (Or.inr ⟨[], rfl⟩)]
      rw [show (';' :: ([] : List Char)).tail = [] from rfl, parsePointsAux_nil]
    | cons q rest =>
      have hform : renderPoints ((px, py) :: q :: rest) ++ [';']
          = renderInt px ++ ',' :: (renderInt py
              ++ (';' :: (renderPoints (q :: rest) ++ [';']))) := by
        simp [renderPoints, renderPoint]
      rw [hform,
        parse_step px py hfx hfy (';' :: (renderPoints (q :: rest) ++ [';']))
          (Or.inr ⟨renderPoints (q :: rest) ++ [';'], rfl⟩)]
      have ht : (';' :: (renderPoints (q :: rest) ++ [';'])).tail
          = renderPoints (q :: rest) ++ [';'] := rfl
      rw [ht, ih (fun b hb => h b (List.mem_cons_of_mem _ hb)) (by simp)]

/-- Claim C5: Geometry::parse_points maps the empty string to the empty
sequence, maps the string 10,20;30,40 to the two pairs (10,20) and (30,40),
and for every well-formed coordinate string — the rendering of any sequence
of integer pairs within the int range, with one trailing semicolon
tolerated after a nonempty sequence — produces exactly that ordered
sequence of pairs. -/
theorem parse_points_roundtrip :
    (parse_points "" = [])
    ∧ (parse_points "10,20;30,40" = [((10 : Int), (20 : Int)), (30, 40)])
    ∧ (∀ ps : List (Int × Int), (∀ p ∈ ps, fits p.1 ∧ fits p.2) →
        parsePointsAux (renderPoints ps) = ps
        ∧ (ps ≠ [] → parsePointsAux (renderPoints ps ++ [';']) = ps)) := by
  refine ⟨?_, ?_, ?_⟩
  · have h0 : "".toList = ([] : List Char) := by decide
    rw [parse_points, h0, parsePointsAux_nil]
  · have hlist : "10,20;30,40".toList
        = renderPoints [((10 : Int), (20 : Int)), (30, 40)] := by decide
    rw [parse_points, hlist]
    exact parse_renderPoints _ (by decide)
  · intro ps hfits
    exact ⟨parse_renderPoints ps hfits,
      parse_renderPoints_trailing ps hfits⟩

/-- Witness for parse_points_roundtrip at the concrete sequence of the
claim. -/
theorem parse_points_roundtrip_witness :
    (∀ p ∈ [((10 : Int), (20 : Int)), (30, 40)], fits p.1 ∧ fits p.2)
    ∧ parsePointsAux (renderPoints [((10 : Int), (20 : Int)), (30, 40)])
      = [((10 : Int), (20 : Int)), (30, 40)] :=
  ⟨by decide,
   (parse_points_roundtrip.2.2 [((10 : Int), (20 : Int)), (30, 40)]
     (by decide)).1⟩

/-- Bounded length of the parse result, by strong induction on the
remaining input. -/
theorem parsePointsAux_length :
    ∀ (n : Nat) (cs : List Char), cs.length ≤ n →
    (parsePointsAux cs).length ≤ cs.length := by
  intro n
  induction n with
  | zero =>
    intro cs hcs
    have hnil : cs = [] := List.length_eq_zero.mp (Nat.le_zero.mp hcs)
    subst hnil
    rw [parsePointsAux_nil]
    exact Nat.le_refl _
  | succ n ih =>
    intro cs hcs
    cases cs with
    | nil =>
      rw [parsePointsAux_nil]
      exact Nat.le_refl _
    | cons c rest =>
      rw [parsePointsAux_eq (c :: rest) (by intro h; cases h)]
      have hcs2 : rest.length ≤ n := by
        rw [List.length_cons] at hcs
        omega
      have hdl : ((c :: rest).drop
          (((c :: rest).findIdx fun ch => decide (ch = ';')) + 1)).length
          ≤ rest.length := by
        rw [List.length_drop, List.length_cons]
        omega
      have hrec := ih ((c :: rest).drop
          (((c :: rest).findIdx fun ch => decide (ch = ';')) + 1))
        (Nat.le_trans hdl hcs2)
      rw [List.length_cons, List.length_cons]
      omega

/-- Claim C10: Geometry::parse_points terminates on every input string with
a finite sequence of points whose length is bounded by the length of the
input: each loop iteration advances the scan position strictly past the
next semicolon (or to the end of the string), so at most one point is
produced per input character. -/
theorem parse_points_length (s : String) :
    (parse_points s).length ≤ s.length := by
  exact parsePointsAux_length s.toList.length s.toList (Nat.le_refl _)

instance : Inhabited Geometry := ⟨⟨Shape.other "", "", none⟩⟩

/-- getD on the left part of an append. -/
theorem getD_append_left {α : Type} (l1 l2 : List α) (j : Nat)
    (hj : j < l1.length) (d : α) :
    (l1 ++ l2).getD j d = l1.getD j d := by
  rw [List.getD_eq_getElem?_getD, List.getD_eq_getElem?_getD,
    List.getElem?_append_left hj]

/-- getD at the index of a freshly appended element. -/
theorem getD_concat_length {α : Type} (l : List α) (a : α) (d : α) :
    (l ++ [a]).getD l.length d = a := by
  rw [List.getD_eq_getElem?_getD, List.getElem?_concat_length]
  rfl

/-- getD after set at the written index. -/
theorem getD_set_self {α : Type} (l : List α) (i : Nat) (hi : i < l.length)
    (a d : α) :
    (l.set i a).getD i d = a := by
  rw [List.getD_eq_getElem?_getD, List.getElem?_set_self hi]
  rfl

/-- getD after set at another index. -/
theorem getD_set_ne {α : Type} (l : List α) (i j : Nat) (h : i ≠ j) (a d : α) :
    (l.set i a).getD j d = l.getD j d := by
  rw [List.getD_eq_getElem?_getD, List.getD_eq_getElem?_getD,
    List.getElem?_set_ne h]

/-- An existing map entry survives appending another entry. -/
theorem lookup_append_some {gs : List (Nat × Nat)} {k v : Nat}
    (h : lookupGroup gs k = some v) (e : Nat × Nat) :
    lookupGroup (gs ++ [e]) k = some v := by
  rw [lookupGroup] at h ⊢
  rw [List.find?_append]
  rcases hf : gs.find? (fun p => p.1 == k) with _ | p
  · rw [hf] at h; cases h
  · rw [hf] at h
    rw [hf]
    exact h

/-- Lookup of a key absent from the map after appending one entry. -/
theorem lookup_append_none {gs : List (Nat × Nat)} {k : Nat}
    (h : lookupGroup gs k = none) (a b : Nat) :
    lookupGroup (gs ++ [(a, b)]) k = if a == k then some b else none := by
  have hf : gs.find? (fun p => p.1 == k) = none := by
    rw [lookupGroup] at h
    rcases hf : gs.find? (fun p => p.1 == k) with _ | p
    · exact hf
    · rw [hf] at h; cases h
  rw [lookupGroup, List.find?_append, hf]
  by_cases hab : (a == k) = true
  · rw [if_pos hab]
    simp [List.find?_cons, hab]
  · rw [if_neg hab]
    simp [List.find?_cons, hab]

/-- Filtering a one-element list. -/
theorem filter_single {α : Type} (p : α → Bool) (a : α) :
    List.filter p [a] = if p a then [a] else [] := by
  rw [List.filter_cons]
  by_cases hp : p a = true
  · rw [if_pos hp, if_pos hp]
    rfl
  · rw [if_neg hp, if_neg hp]
    rfl

/-- The union mask of a geometry list: 255 exactly where some member
covers. -/
def maskOfList (w h : Nat) (gs : List Geometry) : Mask :=
  ⟨w, h, fun x y => if gs.any fun g => coversPix w h g x y then 255 else 0⟩

/-- Appending one geometry to a union mask list ORs its coverage in. -/
theorem maskOfList_append (w h : Nat) (l : List Geometry) (g : Geometry)
    (x y : Nat) :
    (maskOfList w h (l ++ [g])).pix x y
      = if coversPix w h g x y then 255 else (maskOfList w h l).pix x y := by
  show (if (l ++ [g]).any (fun g2 => coversPix w h g2 x y) then 255 else 0) = _
  rw [List.any_append]
  have hg1 : [g].any (fun g2 => coversPix w h g2 x y) = coversPix w h g x y := by
    rw [List.any_cons]
    exact Bool.or_false _
  rw [hg1]
  by_cases hc : coversPix w h g x y = true
  · rw [hc, Bool.or_true]
    rfl
  · rw [Bool.not_eq_true] at hc
    rw [hc, Bool.or_false]
    rfl

/-- Drawing one geometry onto a canvas that pixel-agrees with a union mask
yields the union mask of the appended list. -/
theorem draw_on_maskOfList (w h : Nat) (g : Geometry) (m : Mask)
    (l : List Geometry) (hw : m.width = w) (hh : m.height = h)
    (hp : ∀ x y, m.pix x y = (maskOfList w h l).pix x y) :
    ∀ x y, (g.draw_mask m).pix x y = (maskOfList w h (l ++ [g])).pix x y := by
  intro x y
  rw [draw_mask_pix, hw, hh, maskOfList_append, hp]

/-- Drawing one geometry onto a fresh all-background canvas yields the
union mask of the singleton list. -/
theorem draw_on_empty (w h : Nat) (g : Geometry) :
    ∀ x y, (g.draw_mask ⟨w, h, fun _ _ => 0⟩).pix x y
      = (maskOfList w h [g]).pix x y := by
  intro x y
  have h0 : ∀ x y, (⟨w, h, fun _ _ => 0⟩ : Mask).pix x y
      = (maskOfList w h []).pix x y := fun _ _ => rfl
  have hstep := draw_on_maskOfList w h g ⟨w, h, fun _ _ => 0⟩ [] rfl rfl h0 x y
  simpa using hstep

/-- Loop invariant of Image::mask after processing the matching prefix mp
of the image's children: result records one buffer index per matching
geometry; a buffer mapped by a group id holds the union of the group's
members seen so far; the buffer of an ungrouped geometry holds exactly its
own shape and is referenced by no group. -/
structure GroupInv (w h : Nat) (mp : List Geometry) (st : GroupState) : Prop where
  rlen : st.result.length = mp.length
  rlt : ∀ j, j < mp.length → st.result.getD j 0 < st.store.length
  dims : ∀ i, i < st.store.length →
    (st.store.getD i default).width = w ∧ (st.store.getD i default).height = h
  gbound : ∀ gid idx, lookupGroup st.groups gid = some idx →
    idx < st.store.length
  ginj : ∀ g1 g2 i1 i2, lookupGroup st.groups g1 = some i1 →
    lookupGroup st.groups g2 = some i2 → g1 ≠ g2 → i1 ≠ i2
  gmask : ∀ gid idx, lookupGroup st.groups gid = some idx →
    ∀ x y, (st.store.getD idx default).pix x y
      = (maskOfList w h (mp.filter fun g2 => g2.group == some gid)).pix x y
  gnone : ∀ gid, lookupGroup st.groups gid = none →
    (mp.filter fun g2 => g2.group == some gid) = []
  gslot : ∀ j, j < mp.length → ∀ gid, (mp.getD j default).group = some gid →
    lookupGroup st.groups gid = some (st.result.getD j 0)
  usingle : ∀ j, j < mp.length → (mp.getD j default).group = none →
    (∀ x y, (st.store.getD (st.result.getD j 0) default).pix x y
        = (maskOfList w h [mp.getD j default]).pix x y)
    ∧ (∀ gid idx, lookupGroup st.groups gid = some idx →
        idx ≠ st.result.getD j 0)

/-- The invariant holds initially. -/
theorem groupInv_init (w h : Nat) : GroupInv w h [] ⟨[], [], []⟩ := by
  refine ⟨rfl, ?_, ?_, ?_, ?_, ?_, ?_, ?_, ?_⟩
  · intro j hj; cases hj
  · intro i hi; cases hi
  · intro gid idx h; cases h
  · intro g1 g2 i1 i2 h1; cases h1
  · intro gid idx h; cases h
  · intro gid h; rfl
  · intro j hj; cases hj
  · intro j hj; cases hj

/-- One matching geometry preserves the loop invariant of Image::mask. -/
theorem groupInv_step (w h : Nat) (label : String) (g : Geometry)
    (hg : g.label = label) (mp : List Geometry) (st : GroupState)
    (hinv : GroupInv w h mp st) :
    GroupInv w h (mp ++ [g]) (maskStep w h label st g) := by
  obtain ⟨rlen, rlt, dims, gbound, ginj, gmask, gnone, gslot, usingle⟩ := hinv
  have hmplen : (mp ++ [g]).length = mp.length + 1 := by simp
  have hsplit : ∀ j, j < (mp ++ [g]).length → j < mp.length ∨ j = mp.length := by
    intro j hj
    rw [hmplen] at hj
    omega
  have hresultD : ∀ v : Nat, (st.result ++ [v]).getD mp.length 0 = v := by
    intro v
    rw [← rlen]
    exact getD_concat_length _ _ _
  have hresultD2 : ∀ (v j : Nat), j < mp.length →
      (st.result ++ [v]).getD j 0 = st.result.getD j 0 := by
    intro v j hj
    exact getD_append_left _ _ j (by rw [rlen]; exact hj) _
  have hmpD : ∀ j, j < mp.length → (mp ++ [g]).getD j default = mp.getD j default :=
    fun j hj => getD_append_left _ _ j hj _
  have hmpDlen : (mp ++ [g]).getD mp.length default = g := getD_concat_length _ _ _
  have hstoreD : ∀ (m : Mask) (i : Nat), i < st.store.length →
      (st.store ++ [m]).getD i default = st.store.getD i default :=
    fun m i hi => getD_append_left _ _ i hi _
  have hstoreDlen : ∀ m : Mask, (st.store ++ [m]).getD st.store.length default = m :=
    fun m => getD_concat_length _ _ _
  rcases hgr : g.group with _ | gid0
  · -- ungrouped geometry: fresh buffer, fresh result slot
    have hstep : maskStep w h label st g
        = ⟨st.store ++ [g.draw_mask ⟨w, h, fun _ _ => 0⟩], st.groups,
           st.result ++ [st.store.length]⟩ := by
      rw [maskStep, if_pos hg]
      simp only [hgr]
    have hfilterU : ∀ gid : Nat,
        ((mp ++ [g]).filter fun g2 => g2.group == some gid)
          = mp.filter fun g2 => g2.group == some gid := by
      intro gid
      rw [List.filter_append, filter_single, hgr]
      simp
    rw [hstep]
    refine ⟨?_, ?_, ?_, ?_, ?_, ?_, ?_, ?_, ?_⟩
    · show (st.result ++ [st.store.length]).length = (mp ++ [g]).length
      simp [rlen]
    · intro j hj
      show (st.result ++ [st.store.length]).getD j 0
          < (st.store ++ [g.draw_mask ⟨w, h, fun _ _ => 0⟩]).length
      rw [List.length_append, List.length_cons, List.length_nil]
      rcases hsplit j hj with hj2 | hj2
      · rw [hresultD2 _ j hj2]
        have := rlt j hj2
        omega
      · subst hj2
        rw [hresultD]
        omega
    · intro i hi
      show ((st.store ++ [g.draw_mask ⟨w, h, fun _ _ => 0⟩]).getD i default).width = w
        ∧ ((st.store ++ [g.draw_mask ⟨w, h, fun _ _ => 0⟩]).getD i default).height = h
      rw [List.length_append, List.length_cons, List.length_nil] at hi
      by_cases hi2 : i < st.store.length
      · rw [hstoreD _ i hi2]
        exact dims i hi2
      · have hie : i = st.store.length := by omega
        subst hie
        rw [hstoreDlen]
        exact ⟨rfl, rfl⟩
    · intro gid idx hlk
      show idx < (st.store ++ [g.draw_mask ⟨w, h, fun _ _ => 0⟩]).length
      have := gbound gid idx hlk
      rw [List.length_append, List.length_cons, List.length_nil]
      omega
    · exact ginj
    · intro gid idx hlk x y
      show ((st.store ++ [g.draw_mask ⟨w, h, fun _ _ => 0⟩]).getD idx default).pix x y = _
      rw [hstoreD _ idx (gbound gid idx hlk), hfilterU gid]
      exact gmask gid idx hlk x y
    · intro gid hlk
      rw [hfilterU gid]
      exact gnone gid hlk
    · intro j hj gid hgid
      rcases hsplit j hj with hj2 | hj2
      · rw [hmpD j hj2] at hgid
        show lookupGroup st.groups gid = some ((st.result ++ [st.store.length]).getD j 0)
        rw [hresultD2 _ j hj2]
        exact gslot j hj2 gid hgid
      · subst hj2
        rw [hmpDlen, hgr] at hgid
        cases hgid
    · intro j hj hnone
      rcases hsplit j hj with hj2 | hj2
      · rw [hmpD j hj2] at hnone
        obtain ⟨hpix, hsep⟩ := usingle j hj2 hnone
        refine ⟨?_, ?_⟩
        · intro x y
          show ((st.store ++ [g.draw_mask ⟨w, h, fun _ _ => 0⟩]).getD
              ((st.result ++ [st.store.length]).getD j 0) default).pix x y = _
          rw [hresultD2 _ j hj2, hmpD j hj2, hstoreD _ _ (rlt j hj2)]
          exact hpix x y
        · intro gid idx hlk
          show idx ≠ (st.result ++ [st.store.length]).getD j 0
          rw [hresultD2 _ j hj2]
          exact hsep gid idx hlk
      · subst hj2
        refine ⟨?_, ?_⟩
        · intro x y
          show ((st.store ++ [g.draw_mask ⟨w, h, fun _ _ => 0⟩]).getD
              ((st.result ++ [st.store.length]).getD mp.length 0) default).pix x y = _
          rw [hresultD, hmpDlen, hstoreDlen]
          exact draw_on_empty w h g x y
        · intro gid idx hlk
          show idx ≠ (st.result ++ [st.store.length]).getD mp.length 0
          rw [hresultD]
          have := gbound gid idx hlk
          omega
  · rcases hlk0 : lookupGroup st.groups gid0 with _ | idx0
    · -- first member of its group: fresh buffer, new map entry
      have hstep : maskStep w h label st g
          = ⟨st.store ++ [g.draw_mask ⟨w, h, fun _ _ => 0⟩],
             st.groups ++ [(gid0, st.store.length)],
             st.result ++ [st.store.length]⟩ := by
        rw [maskStep, if_pos hg]
        simp only [hgr, hlk0]
      have hlk' : ∀ k : Nat,
          lookupGroup (st.groups ++ [(gid0, st.store.length)]) k
            = if gid0 == k then some ((lookupGroup st.groups k).getD st.store.length)
              else lookupGroup st.groups k := by
        intro k
        rcases hk : lookupGroup st.groups k with _ | v
        · rw [lookup_append_none hk]
          by_cases hbk : (gid0 == k) = true
          · rw [if_pos hbk, if_pos hbk]
            rfl
          · rw [if_neg hbk, if_neg hbk]
        · rw [lookup_append_some hk]
          by_cases hbk : (gid0 == k) = true
          · rw [if_pos hbk]
            rfl
          · rw [if_neg hbk]
      have hfEq : ((mp ++ [g]).filter fun g2 => g2.group == some gid0)
          = (mp.filter fun g2 => g2.group == some gid0) ++ [g] := by
        rw [List.filter_append, filter_single, hgr]
        simp
      have hfNe : ∀ gid : Nat, gid ≠ gid0 →
          ((mp ++ [g]).filter fun g2 => g2.group == some gid)
            = mp.filter fun g2 => g2.group == some gid := by
        intro gid hne
        rw [List.filter_append, filter_single, hgr]
        have hb : (some gid0 == some gid) = false :=
          beq_eq_false_iff_ne.mpr fun he => hne (Option.some.inj he).symm
        rw [hb]
        simp
      rw [hstep]
      refine ⟨?_, ?_, ?_, ?_, ?_, ?_, ?_, ?_, ?_⟩
      · show (st.result ++ [st.store.length]).length = (mp ++ [g]).length
        simp [rlen]
      · intro j hj
        show (st.result ++ [st.store.length]).getD j 0
            < (st.store ++ [g.draw_mask ⟨w, h, fun _ _ => 0⟩]).length
        rw [List.length_append, List.length_cons, List.length_nil]
        rcases hsplit j hj with hj2 | hj2
        · rw [hresultD2 _ j hj2]
          have := rlt j hj2
          omega
        · subst hj2
          rw [hresultD]
          omega
      · intro i hi
        show ((st.store ++ [g.draw_mask ⟨w, h, fun _ _ => 0⟩]).getD i default).width = w
          ∧ ((st.store ++ [g.draw_mask ⟨w, h, fun _ _ => 0⟩]).getD i default).height = h
        rw [List.length_append, List.length_cons, List.length_nil] at hi
        by_cases hi2 : i < st.store.length
        · rw [hstoreD _ i hi2]
          exact dims i hi2
        · have hie : i = st.store.length := by omega
          subst hie
          rw [hstoreDlen]
          exact ⟨rfl, rfl⟩
      · intro gid idx hlk
        show idx < (st.store ++ [g.draw_mask ⟨w, h, fun _ _ => 0⟩]).length
        rw [hlk' gid] at hlk
        rw [List.length_append, List.length_cons, List.length_nil]
        by_cases hbk : (gid0 == gid) = true
        · rw [if_pos hbk] at hlk
          injection hlk with hlk2
          rcases hk : lookupGroup st.groups gid with _ | v
          · rw [hk] at hlk2
            simp only [Option.getD_none] at hlk2
            omega
          · rw [hk] at hlk2
            simp only [Option.getD_some] at hlk2
            have := gbound gid v hk
            omega
        · rw [if_neg hbk] at hlk
          have := gbound gid idx hlk
          omega
      · intro g1 g2 i1 i2 h1 h2 hne
        rw [hlk' g1] at h1
        rw [hlk' g2] at h2
        by_cases hb1 : (gid0 == g1) = true
        · by_cases hb2 : (gid0 == g2) = true
          · have he1 : gid0 = g1 := eq_of_beq hb1
            have he2 : gid0 = g2 := eq_of_beq hb2
            exact absurd (he1 ▸ he2) hne
          · rw [if_pos hb1] at h1
            rw [if_neg hb2] at h2
            have hg1eq : gid0 = g1 := eq_of_beq hb1
            injection h1 with h1e
            rcases hk1 : lookupGroup st.groups g1 with _ | v1
            · rw [hk1] at h1e
              simp only [Option.getD_none] at h1e
              have := gbound g2 i2 h2
              omega
            · rw [← hg1eq] at hk1
              rw [hk1] at hlk0
              cases hlk0
        · rw [if_neg hb1] at h1
          by_cases hb2 : (gid0 == g2) = true
          · rw [if_pos hb2] at h2
            have hg2eq : gid0 = g2 := eq_of_beq hb2
            injection h2 with h2e
            rcases hk2 : lookupGroup st.groups g2 with _ | v2
            · rw [hk2] at h2e
              simp only [Option.getD_none] at h2e
              have := gbound g1 i1 h1
              omega
            · rw [← hg2eq] at hk2
              rw [hk2] at hlk0
              cases hlk0
          · rw [if_neg hb2] at h2
            exact ginj g1 g2 i1 i2 h1 h2 hne
      · intro gid idx hlk x y
        show ((st.store ++ [g.draw_mask ⟨w, h, fun _ _ => 0⟩]).getD idx default).pix x y = _
        rw [hlk' gid] at hlk
        by_cases hbk : (gid0 == gid) = true
        · have hgeq : gid0 = gid := eq_of_beq hbk
          rw [if_pos hbk] at hlk
          injection hlk with hlke
          rcases hk : lookupGroup st.groups gid with _ | v
          · rw [hk] at hlke
            simp only [Option.getD_none] at hlke
            subst hlke
            rw [hstoreDlen]
            have hfe : ((mp ++ [g]).filter fun g2 => g2.group == some gid) = [g] := by
              rw [← hgeq, hfEq, gnone gid0 (by rw [hgeq]; exact hk)]
              rfl
            rw [hfe]
            exact draw_on_empty w h g x y
          · rw [← hgeq] at hk
            rw [hk] at hlk0
            cases hlk0
        · rw [if_neg hbk] at hlk
          have hne : gid ≠ gid0 := fun he => by
            rw [he] at hbk
            exact hbk (by simp)
          rw [hstoreD _ idx (gbound gid idx hlk), hfNe gid hne]
          exact gmask gid idx hlk x y
      · intro gid hlk
        rw [hlk' gid] at hlk
        by_cases hbk : (gid0 == gid) = true
        · rw [if_pos hbk] at hlk
          cases hlk
        · rw [if_neg hbk] at hlk
          have hne : gid ≠ gid0 := fun he => by
            rw [he] at hbk
            exact hbk (by simp)
          rw [hfNe gid hne]
          exact gnone gid hlk
      · intro j hj gid hgid
        rcases hsplit j hj with hj2 | hj2
        · rw [hmpD j hj2] at hgid
          show lookupGroup (st.groups ++ [(gid0, st.store.length)]) gid
              = some ((st.result ++ [st.store.length]).getD j 0)
          rw [hresultD2 _ j hj2, hlk' gid]
          have hold := gslot j hj2 gid hgid
          by_cases hbk : (gid0 == gid) = true
          · have hgeq : gid0 = gid := eq_of_beq hbk
            rw [← hgeq] at hold
            rw [hold] at hlk0
            cases hlk0
          · rw [if_neg hbk]
            exact hold
        · subst hj2
          rw [hmpDlen, hgr] at hgid
          have hgeq : gid = gid0 := by
            injection hgid with he
            exact he.symm
          subst hgeq
          show lookupGroup (st.groups ++ [(gid, st.store.length)]) gid
              = some ((st.result ++ [st.store.length]).getD mp.length 0)
          rw [hresultD, hlk' gid, if_pos (by simp), hlk0]
          rfl
      · intro j hj hnone
        rcases hsplit j hj with hj2 | hj2
        · rw [hmpD j hj2] at hnone
          obtain ⟨hpix, hsep⟩ := usingle j hj2 hnone
          refine ⟨?_, ?_⟩
          · intro x y
            show ((st.store ++ [g.draw_mask ⟨w, h, fun _ _ => 0⟩]).getD
                ((st.result ++ [st.store.length]).getD j 0) default).pix x y = _
            rw [hresultD2 _ j hj2, hmpD j hj2, hstoreD _ _ (rlt j hj2)]
            exact hpix x y
          · intro gid idx hlk
            show idx ≠ (st.result ++ [st.store.length]).getD j 0
            rw [hresultD2 _ j hj2]
            rw [hlk' gid] at hlk
            by_cases hbk : (gid0 == gid) = true
            · rw [if_pos hbk] at hlk
              injection hlk with hlke
              rcases hk : lookupGroup st.groups gid with _ | v
              · rw [hk] at hlke
                simp only [Option.getD_none] at hlke
                have := rlt j hj2
                omega
              · have hgeq : gid0 = gid := eq_of_beq hbk
                rw [← hgeq] at hk
                rw [hk] at hlk0
                cases hlk0
            · rw [if_neg hbk] at hlk
              exact hsep gid idx hlk
        · subst hj2
          rw [hmpDlen, hgr] at hnone
          cases hnone
    · -- later member of an existing group: draw onto the mapped buffer
      have hidx0 : idx0 < st.store.length := gbound gid0 idx0 hlk0
      have hstep : maskStep w h label st g
          = ⟨st.store.set idx0 (g.draw_mask (st.store.getD idx0 default)),
             st.groups, st.result ++ [idx0]⟩ := by
        rw [maskStep, if_pos hg]
        simp only [hgr, hlk0]
      have hsetDself : ∀ m : Mask,
          (st.store.set idx0 m).getD idx0 default = m :=
        fun m => getD_set_self _ _ hidx0 _ _
      have hsetDne : ∀ (m : Mask) (i : Nat), i ≠ idx0 →
          (st.store.set idx0 m).getD i default = st.store.getD i default :=
        fun m i hne => getD_set_ne _ _ _ (fun he => hne he.symm) _ _
      have hfEq : ((mp ++ [g]).filter fun g2 => g2.group == some gid0)
          = (mp.filter fun g2 => g2.group == some gid0) ++ [g] := by
        rw [List.filter_append, filter_single, hgr]
        simp
      have hfNe : ∀ gid : Nat, gid ≠ gid0 →
          ((mp ++ [g]).filter fun g2 => g2.group == some gid)
            = mp.filter fun g2 => g2.group == some gid := by
        intro gid hne
        rw [List.filter_append, filter_single, hgr]
        have hb : (some gid0 == some gid) = false :=
          beq_eq_false_iff_ne.mpr fun he => hne (Option.some.inj he).symm
        rw [hb]
        simp
      rw [hstep]
      refine ⟨?_, ?_, ?_, ?_, ?_, ?_, ?_, ?_, ?_⟩
      · show (st.result ++ [idx0]).length = (mp ++ [g]).length
        simp [rlen]
      · intro j hj
        show (st.result ++ [idx0]).getD j 0
            < (st.store.set idx0 (g.draw_mask (st.store.getD idx0 default))).length
        rw [List.length_set]
        rcases hsplit j hj with hj2 | hj2
        · rw [hresultD2 _ j hj2]
          exact rlt j hj2
        · subst hj2
          rw [hresultD]
          exact hidx0
      · intro i hi
        show (((st.store.set idx0 (g.draw_mask (st.store.getD idx0 default))).getD
              i default).width = w)
          ∧ (((st.store.set idx0 (g.draw_mask (st.store.getD idx0 default))).getD
              i default).height = h)
        rw [List.length_set] at hi
        by_cases hie : i = idx0
        · subst hie
          rw [hsetDself]
          exact ⟨(dims i hi).1, (dims i hi).2⟩
        · rw [hsetDne _ i hie]
          exact dims i hi
      · intro gid idx hlk
        show idx < (st.store.set idx0 (g.draw_mask (st.store.getD idx0 default))).length
        rw [List.length_set]
        exact gbound gid idx hlk
      · exact ginj
      · intro gid idx hlk x y
        show (((st.store.set idx0 (g.draw_mask (st.store.getD idx0 default))).getD
            idx default).pix x y) = _
        by_cases hgeq : gid = gid0
        · subst hgeq
          have hie : idx = idx0 := by
            rw [hlk0] at hlk
            injection hlk with he
            exact he.symm
          subst hie
          rw [hsetDself, hfEq]
          exact draw_on_maskOfList w h g (st.store.getD idx default)
            (mp.filter fun g2 => g2.group == some gid)
            (dims idx hidx0).1 (dims idx hidx0).2
            (gmask gid idx hlk0) x y
        · have hine : idx ≠ idx0 := ginj gid gid0 idx idx0 hlk hlk0 hgeq
          rw [hsetDne _ idx hine, hfNe gid hgeq]
          exact gmask gid idx hlk x y
      · intro gid hlk
        have hne : gid ≠ gid0 := fun he => by
          rw [he, hlk0] at hlk
          cases hlk
        rw [hfNe gid hne]
        exact gnone gid hlk
      · intro j hj gid hgid
        rcases hsplit j hj with hj2 | hj2
        · rw [hmpD j hj2] at hgid
          show lookupGroup st.groups gid = some ((st.result ++ [idx0]).getD j 0)
          rw [hresultD2 _ j hj2]
          exact gslot j hj2 gid hgid
        · subst hj2
          rw [hmpDlen, hgr] at hgid
          have hgeq : gid = gid0 := by
            injection hgid with he
            exact he.symm
          subst hgeq
          show lookupGroup st.groups gid = some ((st.result ++ [idx0]).getD mp.length 0)
          rw [hresultD]
          exact hlk0
      · intro j hj hnone
        rcases hsplit j hj with hj2 | hj2
        · rw [hmpD j hj2] at hnone
          obtain ⟨hpix, hsep⟩ := usingle j hj2 hnone
          refine ⟨?_, ?_⟩
          · intro x y
            show (((st.store.set idx0 (g.draw_mask (st.store.getD idx0 default))).getD
                ((st.result ++ [idx0]).getD j 0) default).pix x y) = _
            rw [hresultD2 _ j hj2, hmpD j hj2]
            have hne : st.result.getD j 0 ≠ idx0 :=
              fun he => hsep gid0 idx0 hlk0 he.symm
            rw [hsetDne _ _ hne]
            exact hpix x y
          · intro gid idx hlk
            show idx ≠ (st.result ++ [idx0]).getD j 0
            rw [hresultD2 _ j hj2]
            exact hsep gid idx hlk
        · subst hj2
          rw [hmpDlen, hgr] at hnone
          cases hnone

/-- The invariant is preserved along the whole child loop of
Image::mask. -/
theorem groupInv_foldl (w h : Nat) (label : String) :
    ∀ (gs mp : List Geometry) (st : GroupState),
    GroupInv w h mp st →
    GroupInv w h (mp ++ gs.filter fun g => decide (g.label = label))
      (gs.foldl (maskStep w h label) st) := by
  intro gs
  induction gs with
  | nil =>
    intro mp st hinv
    simpa using hinv
  | cons g t ih =>
    intro mp st hinv
    rw [List.foldl_cons, List.filter_cons]
    by_cases hg : g.label = label
    · rw [if_pos (by simp [hg])]
      have h2 := ih (mp ++ [g]) (maskStep w h label st g)
        (groupInv_step w h label g hg mp st hinv)
      have he : (mp ++ [g]) ++ (t.filter fun g2 => decide (g2.label = label))
          = mp ++ g :: (t.filter fun g2 => decide (g2.label = label)) := by
        simp
      rw [he] at h2
      exact h2
    · rw [if_neg (by simp [hg])]
      have hskip : maskStep w h label st g = st := by
        rw [maskStep, if_neg hg]
      rw [hskip]
      exact ih mp st hinv

/-- Claim C1 (amended): Image::mask returns one mask entry per matching
geometry, in document order — not one per partition.  The entry of a
geometry without a group is its own singleton mask, holding exactly that
shape; the entries of the geometries sharing a group id all alias one
buffer and each equals the union of the whole group's shapes, so a group
of two geometries contributes two identical entries containing the union
rather than a single one. -/
theorem mask_grouped_partition :
    ∀ (img : Image) (label : String),
    ((Image.mask img label).length
        = (img.geometries.filter fun g => decide (g.label = label)).length)
    ∧ (∀ j, j < (img.geometries.filter fun g => decide (g.label = label)).length →
       ∀ x y : Nat,
       ((Image.mask img label).getD j default).pix x y
         = (maskOfList img.width img.height
             (match ((img.geometries.filter fun g =>
                 decide (g.label = label)).getD j default).group with
              | some gid =>
                (img.geometries.filter fun g => decide (g.label = label)).filter
                  fun g2 => g2.group == some gid
              | none =>
                [(img.geometries.filter fun g =>
                    decide (g.label = label)).getD j default])).pix x y) := by
  intro img label
  have hinv := groupInv_foldl img.width img.height label img.geometries []
    ⟨[], [], []⟩ (groupInv_init img.width img.height)
  rw [List.nil_append] at hinv
  obtain ⟨rlen, rlt, dims, gbound, ginj, gmask, gnone, gslot, usingle⟩ := hinv
  have hmask : Image.mask img label
      = (img.geometries.foldl (maskStep img.width img.height label)
          ⟨[], [], []⟩).result.map
        (fun i => (img.geometries.foldl (maskStep img.width img.height label)
          ⟨[], [], []⟩).store.getD i default) := rfl
  constructor
  · rw [hmask, List.length_map, rlen]
  · intro j hj x y
    have hjr : j < (img.geometries.foldl (maskStep img.width img.height label)
        ⟨[], [], []⟩).result.length := by
      rw [rlen]
      exact hj
    rw [hmask, getD_map _ _ j hjr 0 default]
    rcases hgr : ((img.geometries.filter fun g =>
        decide (g.label = label)).getD j default).group with _ | gid
    · rw [hgr]
      exact (usingle j hj hgr).1 x y
    · rw [hgr]
      have hslot := gslot j hj gid hgr
      exact gmask gid _ hslot x y

/-- Claim C1, counterexample: an image with exactly two geometries, both
with label car and group_id 1, yields a grouped sequence of length two —
the loop pushes one vector entry per matching geometry, even when the
geometry joined an existing group — where the claim requires exactly one
mask for the partition.  Both entries alias the group's buffer and show
the union of the two boxes. -/
theorem mask_grouped_counterexample :
    ((Image.mask (Image.mk "a" 4 4
        [Geometry.mk (Shape.box 0 0 1 1) "car" (some 1),
         Geometry.mk (Shape.box 1 1 2 2) "car" (some 1)]) "car").length = 2)
    ∧ (((Image.mask (Image.mk "a" 4 4
        [Geometry.mk (Shape.box 0 0 1 1) "car" (some 1),
         Geometry.mk (Shape.box 1 1 2 2) "car" (some 1)]) "car").getD 0
          default).pix 0 0 = 255)
    ∧ (((Image.mask (Image.mk "a" 4 4
        [Geometry.mk (Shape.box 0 0 1 1) "car" (some 1),
         Geometry.mk (Shape.box 1 1 2 2) "car" (some 1)]) "car").getD 0
          default).pix 1 1 = 255)
    ∧ (((Image.mask (Image.mk "a" 4 4
        [Geometry.mk (Shape.box 0 0 1 1) "car" (some 1),
         Geometry.mk (Shape.box 1 1 2 2) "car" (some 1)]) "car").getD 1
          default).pix 1 1 = 255) :=
  ⟨by decide, by decide, by decide, by decide⟩

/-- Witness for mask_grouped_partition: the first entry of the grouped
sequence of a concrete two-geometry group equals the union mask of the
whole group at a union-only pixel. -/
theorem mask_grouped_partition_witness :
    ((0 : Nat) < ((Image.mk "a" 4 4
        [Geometry.mk (Shape.box 0 0 1 1) "car" (some 1),
         Geometry.mk (Shape.box 1 1 2 2) "car" (some 1)]).geometries.filter
          fun g => decide (g.label = "car")).length)
    ∧ (((Image.mask (Image.mk "a" 4 4
        [Geometry.mk (Shape.box 0 0 1 1) "car" (some 1),
         Geometry.mk (Shape.box 1 1 2 2) "car" (some 1)]) "car").getD 0
          default).pix 1 1
        = (maskOfList 4 4
            (((Image.mk "a" 4 4
              [Geometry.mk (Shape.box 0 0 1 1) "car" (some 1),
               Geometry.mk (Shape.box 1 1 2 2) "car" (some 1)]).geometries.filter
                fun g => decide (g.label = "car")).filter
              fun g2 => g2.group == some 1)).pix 1 1) :=
  ⟨by decide,
   (mask_grouped_partition (Image.mk "a" 4 4
      [Geometry.mk (Shape.box 0 0 1 1) "car" (some 1),
       Geometry.mk (Shape.box 1 1 2 2) "car" (some 1)]) "car").2 0 (by decide)
     1 1⟩
